import Mathlib

/-!
Verification development for the image-translator core
(`src/utils/utils.py`, `src/utils/font_utils.py`, `src/src/image_processor.py`,
`src/src/ui/main_window.py`).

Modelling conventions:
* Python strings are `List Char`; `str.strip` / `str.isspace` use
  `Char.isWhitespace`.
* Pixel coordinates and PIL measurements are exact rationals `ℚ`
  (the Python code computes with floats; we model the arithmetic exactly).
* Python `int(...)` truncation toward zero is `pyInt`; Python float `%`
  (sign of the divisor) is `pyMod`; Python `//` on naturals is `Nat` division.
* PIL font metrics that depend on the font file are abstracted as parameters:
  `w : List Char → ℚ` models `draw.textlength(·, font=font)` on strings
  without a newline (PIL raises `ValueError` on multiline text, which the
  sources catch where relevant), `baseLineH` models the spacing-free value
  computed by `get_font_line_height` in `font_utils.py` lines 108-164, and
  `colW` models `font.getlength("M")`.
-/

attribute [local semireducible] Rat.sub Rat.add Rat.mul Rat.inv

/-- Python `int(q)`: truncation toward zero. -/
def pyInt (q : ℚ) : ℤ := if 0 ≤ q then ⌊q⌋ else ⌈q⌉

/-- Python float `%`: remainder with the sign of the divisor (`a - b*⌊a/b⌋`). -/
def pyMod (a b : ℚ) : ℚ := a - b * ⌊a / b⌋

/-- Python `str.strip()`: drop whitespace from both ends. -/
def pyStrip (s : List Char) : List Char :=
  ((s.dropWhile Char.isWhitespace).reverse.dropWhile Char.isWhitespace).reverse

/-- The `for char_val in reversed(text): if not char_val.isspace(): ... break`
loop of `is_sentence_end` (utils.py lines 131-134): last non-space character. -/
def lastNonSpace (s : List Char) : Option Char :=
  s.reverse.find? (fun c => !c.isWhitespace)

/-- Sentence-ending punctuation set of `is_sentence_end` (utils.py line 127). -/
def endChars : List Char := ['。', '、', '！', '？', '.', '!', '?']

/-- Closing brackets set of `is_sentence_end` (utils.py line 128). -/
def closingBrackets : List Char := ['」', '』', '）', ')', '】', ']', '"', '\'']

/-- The `while temp_text.endswith(last_char) or temp_text.endswith(' ')` loop of
`is_sentence_end` (utils.py lines 146-150): strip trailing `lc`s and spaces. -/
def stripTrailingLcSpace (lc : Char) (s : List Char) : List Char :=
  (s.reverse.dropWhile (fun c => c = lc || c = ' ')).reverse

/-- Embedding of `is_sentence_end` (utils.py lines 124-160). -/
def isSentenceEnd (t : List Char) : Bool :=
  let text := pyStrip t
  if text = [] then false
  else
    match lastNonSpace text with
    | none => false
    | some lastChar =>
      if lastChar ∈ endChars then true
      else if lastChar ∈ closingBrackets then
        if text.length > 1 then
          let temp := stripTrailingLcSpace lastChar text
          match lastNonSpace temp with
          | some secondLast => secondLast ∈ endChars
          | none => false
        else false
      else false

/-- Axis-aligned bounding box `[x_min, y_min, x_max, y_max]`. -/
structure Box where
  x0 : ℚ
  y0 : ℚ
  x1 : ℚ
  y1 : ℚ
deriving DecidableEq, Repr

/-- Embedding of `check_horizontal_proximity` (utils.py lines 163-209); the
ratio arguments `0.6`, `1.5` are the defaults, never overridden by the caller
(`min_overlap_ratio` is only used in commented-out code). -/
def checkHorizontalProximity (box1 box2 : Box) : Bool :=
  -- box1 completely to the right of box2 (utils.py line 176); the locals
  -- h1, h2, center1_y, center2_y, avg_h of the source are inlined
  if box1.x0 > box2.x0 ∧ box1.x1 > box2.x1 ∧ box1.x0 > box2.x1 then false
  else if box1.y1 - box1.y0 ≤ 0 ∨ box2.y1 - box2.y0 ≤ 0 then false
  else if ((box1.y1 - box1.y0) + (box2.y1 - box2.y0)) / 2 ≤ 0 then false
  else if |(box1.y0 + box1.y1) / 2 - (box2.y0 + box2.y1) / 2| >
      ((box1.y1 - box1.y0) + (box2.y1 - box2.y0)) / 2 * (3 / 5) then false
  else if box1.x1 ≤ box2.x0 then
    -- strict horizontal gap
    if box2.x0 - box1.x1 > ((box1.y1 - box1.y0) + (box2.y1 - box2.y0)) / 2 * (3 / 2)
      then false else true
  else
    -- overlap, or box2 starts before box1
    if box2.x0 < box1.x0 ∧
        box1.x0 - box2.x0 > ((box1.y1 - box1.y0) + (box2.y1 - box2.y0)) / 2 * (1 / 2)
      then false else true

/-- One parsed OCR fragment (the `raw_blocks` entries of
`process_ocr_results_merge_lines`, utils.py line 287; the unused `vertices`
field is omitted). -/
structure OcrBlock where
  id : ℕ
  text : List Char
  bbox : Box
deriving DecidableEq, Repr

/-- CJK language hints that suppress the join space (utils.py line 334). -/
def cjkLangs : List String := ["ja", "zh", "ko", "jpn", "chi_sim", "kor", "chinese_sim"]

/-- Joiner computation on a successful merge (utils.py lines 332-339). -/
def joinerFor (lang : String) (cur next : List Char) : List Char :=
  if lang ∈ cjkLangs then []
  else if cur ≠ [] ∧ next ≠ [] then
    if ¬ (∃ c ∈ [('-' : Char), '=', '#'], cur.getLast? = some c) ∧
       ¬ (∃ c ∈ [('.' : Char), ',', '!', '?', ':', ';'], next.head? = some c) then [' ']
    else []
  else []

/-- Union of two bounding boxes (utils.py lines 345-348). -/
def boxUnion (a b : Box) : Box :=
  ⟨min a.x0 b.x0, min a.y0 b.y0, max a.x1 b.x1, max a.y1 b.y1⟩

/-- Result of scanning forward from one span head: accumulated text, merged
bounding box, and the fragments left unconsumed. -/
structure SpanOut where
  text : List Char
  bbox : Box
  rest : List OcrBlock
deriving DecidableEq, Repr

/-- The inner loop of `process_ocr_results_merge_lines` (utils.py lines
319-357): greedily merge forward candidates into the current span; the first
candidate that fails ends the scan (`break`), all later fragments stay. -/
def mergeSpan (lang : String) : List Char → Box → OcrBlock → List OcrBlock → SpanOut
  | txt, bb, _, [] => ⟨txt, bb, []⟩
  | txt, bb, last, b :: rest =>
    if ¬ isSentenceEnd txt ∧ checkHorizontalProximity last.bbox b.bbox then
      mergeSpan lang (txt ++ joinerFor lang txt b.text ++ b.text) (boxUnion bb b.bbox) b rest
    else ⟨txt, bb, b :: rest⟩

theorem mergeSpan_rest_length (lang : String) (txt : List Char) (bb : Box)
    (last : OcrBlock) (l : List OcrBlock) :
    (mergeSpan lang txt bb last l).rest.length ≤ l.length := by
  induction l generalizing txt bb last with
  | nil => simp [mergeSpan]
  | cons b rest ih =>
    rw [mergeSpan]
    split
    · exact Nat.le_succ_of_le (ih _ _ _)
    · exact Nat.le_refl _

/-- Fuel-indexed form of the outer loop of `process_ocr_results_merge_lines`
(utils.py lines 302-367): repeatedly start a span at the first unconsumed
fragment and extend it with `mergeSpan`. The fuel only makes the recursion
structural; each round consumes at least one fragment, so fuel
`≥ list length` never runs out (`mergeAllF_congr`). -/
def mergeAllF (lang : String) (fuel : ℕ) (l : List OcrBlock) :
    List (List Char × Box) :=
  match l with
  | [] => []
  | b :: rest =>
    match fuel with
    | 0 => []
    | fuel + 1 =>
      let s := mergeSpan lang b.text b.bbox b rest
      (s.text, s.bbox) :: mergeAllF lang fuel s.rest

/-- The outer merge loop on the sorted fragment list. -/
def mergeAll (lang : String) (l : List OcrBlock) : List (List Char × Box) :=
  mergeAllF lang l.length l

theorem mergeAllF_congr (lang : String) :
    ∀ (f₁ f₂ : ℕ) (l : List OcrBlock), l.length ≤ f₁ → l.length ≤ f₂ →
      mergeAllF lang f₁ l = mergeAllF lang f₂ l := by
  intro f₁
  induction f₁ with
  | zero =>
    intro f₂ l h₁ _
    match l with
    | [] => cases f₂ <;> rfl
    | _ :: _ => simp at h₁
  | succ f ih =>
    intro f₂ l h₁ h₂
    match l, h₁, h₂ with
    | [], _, _ => cases f₂ <;> rfl
    | b :: rest, h₁, h₂ =>
      match f₂, h₂ with
      | 0, h₂ => simp at h₂
      | g + 1, h₂ =>
        simp only [mergeAllF]
        rw [ih g _ (Nat.le_trans (mergeSpan_rest_length lang b.text b.bbox b rest)
              (Nat.le_of_succ_le_succ h₁))
            (Nat.le_trans (mergeSpan_rest_length lang b.text b.bbox b rest)
              (Nat.le_of_succ_le_succ h₂))]

theorem mergeAll_nil (lang : String) : mergeAll lang [] = [] := rfl

theorem mergeAll_cons (lang : String) (b : OcrBlock) (rest : List OcrBlock) :
    mergeAll lang (b :: rest) =
      (let s := mergeSpan lang b.text b.bbox b rest
       (s.text, s.bbox) :: mergeAll lang s.rest) := by
  show mergeAllF lang (rest.length + 1) (b :: rest) = _
  simp only [mergeAllF, mergeAll]
  rw [mergeAllF_congr lang rest.length _ _
    (mergeSpan_rest_length lang b.text b.bbox b rest) (Nat.le_refl _)]

/-- One raw OCR input item, modelled after the 4-point polygon form accepted by
`process_ocr_results_merge_lines` step 1 (utils.py lines 218-287; the flat
8-number form encodes the same four integer points). -/
structure RawItem where
  vertices : List (ℤ × ℤ)
  text : List Char
deriving DecidableEq, Repr

/-- Step-1 normalization of one input item (utils.py lines 218-287): strip the
text and discard the item if it is empty, require four vertices, build the
axis-aligned bbox, and discard non-positive-area boxes. -/
def parseItem (i : ℕ) (it : RawItem) : Option OcrBlock :=
  let t := pyStrip it.text
  if t = [] then none
  else if h : it.vertices.length = 4 then
    let v0 := it.vertices.get ⟨0, by omega⟩
    let v1 := it.vertices.get ⟨1, by omega⟩
    let v2 := it.vertices.get ⟨2, by omega⟩
    let v3 := it.vertices.get ⟨3, by omega⟩
    let xmin : ℤ := min (min v0.1 v1.1) (min v2.1 v3.1)
    let ymin : ℤ := min (min v0.2 v1.2) (min v2.2 v3.2)
    let xmax : ℤ := max (max v0.1 v1.1) (max v2.1 v3.1)
    let ymax : ℤ := max (max v0.2 v1.2) (max v2.2 v3.2)
    if xmax > xmin ∧ ymax > ymin then
      some ⟨i, t, ⟨(xmin : ℚ), (ymin : ℚ), (xmax : ℚ), (ymax : ℚ)⟩⟩
    else none
  else none

/-- Sort order of `raw_blocks.sort(key=lambda b: (b['bbox'][1], b['bbox'][0]))`
(utils.py line 297): lexicographic on `(y_min, x_min)`. -/
def blockLE (a b : OcrBlock) : Prop :=
  a.bbox.y0 < b.bbox.y0 ∨ (a.bbox.y0 = b.bbox.y0 ∧ a.bbox.x0 ≤ b.bbox.x0)

instance : DecidableRel blockLE := fun a b =>
  inferInstanceAs (Decidable (a.bbox.y0 < b.bbox.y0 ∨
    (a.bbox.y0 = b.bbox.y0 ∧ a.bbox.x0 ≤ b.bbox.x0)))

/-- Embedding of `process_ocr_results_merge_lines` (utils.py lines 212-369):
normalize, sort stably by `(y_min, x_min)`, then greedily merge.
`List.insertionSort` is a stable sort, as is Python's `list.sort`. -/
def mergeLines (items : List RawItem) (lang : String) : List (List Char × Box) :=
  let blocks := (items.enum.filterMap (fun p => parseItem p.1 p.2))
  mergeAll lang (List.insertionSort blockLE blocks)

/-! ### Helper lemmas about `isSentenceEnd` and list scanning -/

theorem dropWhile_getLast? {q : Char → Bool} {t : List Char} {c : Char}
    (h : t.getLast? = some c) (hc : q c = false) :
    (t.dropWhile q).getLast? = some c ∧ t.dropWhile q ≠ [] := by
  induction t with
  | nil => simp at h
  | cons a t ih =>
    by_cases hq : q a = true
    · match t, h with
      | [], h =>
        simp only [List.getLast?_singleton, Option.some_inj] at h
        subst h
        rw [hq] at hc
        exact absurd hc (by simp)
      | b :: t, h =>
        rw [List.getLast?_cons_cons] at h
        simpa [List.dropWhile_cons, hq] using ih h
    · have hq' : q a = false := by simpa using hq
      refine ⟨?_, by simp [List.dropWhile_cons, hq']⟩
      rw [List.dropWhile_cons, hq']
      simpa using h

theorem lastNonSpace_of_getLast {t : List Char} {c : Char}
    (h : t.getLast? = some c) (hc : ¬ c.isWhitespace) :
    lastNonSpace t = some c := by
  unfold lastNonSpace
  have hrev : t.reverse.head? = some c := by
    rw [List.head?_reverse]; exact h
  match hr : t.reverse with
  | [] => rw [hr] at hrev; simp at hrev
  | a :: r =>
    rw [hr] at hrev
    simp only [List.head?_cons, Option.some_inj] at hrev
    subst hrev
    simp [List.find?, hc]

/-- A text whose final character is non-whitespace keeps it as the last
non-space character after Python stripping. -/
theorem lastNonSpace_pyStrip_of_getLast {t : List Char} {c : Char}
    (h : t.getLast? = some c) (hc : ¬ c.isWhitespace) :
    lastNonSpace (pyStrip t) = some c ∧ pyStrip t ≠ [] := by
  unfold pyStrip
  have h1 := @dropWhile_getLast? Char.isWhitespace t c h (by simpa using hc)
  have hrev : (t.dropWhile Char.isWhitespace).reverse.head? = some c := by
    rw [List.head?_reverse]; exact h1.1
  match hr : (t.dropWhile Char.isWhitespace).reverse with
  | [] =>
    exact absurd (by rw [← List.reverse_eq_nil_iff, hr] : t.dropWhile Char.isWhitespace = [])
      h1.2
  | a :: r =>
    rw [hr] at hrev
    simp only [List.head?_cons, Option.some_inj] at hrev
    have hcw : Char.isWhitespace a = false := by rw [hrev]; simpa using hc
    rw [List.dropWhile_cons, hcw]
    refine ⟨?_, by simp⟩
    rw [hrev]
    exact lastNonSpace_of_getLast (by simp) hc

/-- A text that literally ends with one of the sentence-ending punctuation
characters is judged sentence-complete by `is_sentence_end`. -/
theorem isSentenceEnd_of_endChar {t : List Char} {c : Char}
    (h : t.getLast? = some c) (hc : c ∈ endChars) :
    isSentenceEnd t = true := by
  have hcw : ¬ c.isWhitespace := by
    fin_cases hc <;> decide
  obtain ⟨h1, h2⟩ := lastNonSpace_pyStrip_of_getLast h hcw
  unfold isSentenceEnd
  simp only [h2, if_neg (by exact h2), h1]
  simp [hc]

theorem joinerFor_ja (cur next : List Char) : joinerFor "ja" cur next = [] := by
  simp [joinerFor, cjkLangs]

/-- Unfolding of the greedy merge on a two-fragment list. -/
theorem mergeAll_pair_eq (b1 b2 : OcrBlock) :
    mergeAll "ja" [b1, b2] =
      if ¬ isSentenceEnd b1.text ∧ checkHorizontalProximity b1.bbox b2.bbox then
        [(b1.text ++ b2.text, boxUnion b1.bbox b2.bbox)]
      else [(b1.text, b1.bbox), (b2.text, b2.bbox)] := by
  rw [mergeAll_cons]
  by_cases hc : ¬ isSentenceEnd b1.text ∧ checkHorizontalProximity b1.bbox b2.bbox
  · rw [if_pos hc]
    simp only [mergeSpan, if_pos hc, joinerFor_ja, List.append_nil, mergeAll_nil]
  · rw [if_neg hc]
    simp only [mergeSpan, if_neg hc, mergeAll_cons, mergeAll_nil]

/-- C1: during greedy merging a candidate merges into the current span iff the
span text is not sentence-complete and it passes the horizontal-proximity test
against the last-merged fragment; in particular a pair in proximity range does
not merge when the first text ends with one of `。、！？.!?`, and does merge
(texts concatenated, no joiner under the CJK hint `"ja"`) when the first text
is not sentence-complete. -/
theorem merge_respects_sentence_boundaries (b1 b2 : OcrBlock) :
    (mergeAll "ja" [b1, b2] =
      if ¬ isSentenceEnd b1.text ∧ checkHorizontalProximity b1.bbox b2.bbox then
        [(b1.text ++ b2.text, boxUnion b1.bbox b2.bbox)]
      else [(b1.text, b1.bbox), (b2.text, b2.bbox)]) ∧
    (∀ c ∈ endChars, b1.text.getLast? = some c →
      checkHorizontalProximity b1.bbox b2.bbox = true →
      mergeAll "ja" [b1, b2] = [(b1.text, b1.bbox), (b2.text, b2.bbox)]) ∧
    (isSentenceEnd b1.text = false →
      checkHorizontalProximity b1.bbox b2.bbox = true →
      mergeAll "ja" [b1, b2] =
        [(b1.text ++ b2.text, boxUnion b1.bbox b2.bbox)]) := by
  refine ⟨mergeAll_pair_eq b1 b2, ?_, ?_⟩
  · intro c hc hlast hprox
    rw [mergeAll_pair_eq b1 b2, if_neg]
    intro hcond
    exact hcond.1 (by simp [isSentenceEnd_of_endChar hlast hc])
  · intro hse hprox
    rw [mergeAll_pair_eq b1 b2, if_pos]
    exact ⟨by simp [hse], hprox⟩

/-- C1 witness: the spec's own examples. `"こんにちは。"` in proximity of
`"さようなら"` does not merge; `"こんに"` and `"ちは"` merge to `"こんにちは"`. -/
theorem merge_respects_sentence_boundaries_witness :
    (('。' ∈ endChars ∧
      (['こ','ん','に','ち','は','。'] : List Char).getLast? = some '。' ∧
      checkHorizontalProximity ⟨0,0,30,20⟩ ⟨32,1,62,19⟩ = true) ∧
      mergeAll "ja" [⟨0, ['こ','ん','に','ち','は','。'], ⟨0,0,30,20⟩⟩,
                     ⟨1, ['さ','よ','う','な','ら'], ⟨32,1,62,19⟩⟩] =
        [(['こ','ん','に','ち','は','。'], ⟨0,0,30,20⟩),
         (['さ','よ','う','な','ら'], ⟨32,1,62,19⟩)]) ∧
    ((isSentenceEnd ['こ','ん','に'] = false ∧
      checkHorizontalProximity ⟨0,0,30,20⟩ ⟨32,1,62,19⟩ = true) ∧
      mergeAll "ja" [⟨0, ['こ','ん','に'], ⟨0,0,30,20⟩⟩, ⟨1, ['ち','は'], ⟨32,1,62,19⟩⟩] =
        [(['こ','ん','に','ち','は'], boxUnion ⟨0,0,30,20⟩ ⟨32,1,62,19⟩)]) :=
  ⟨⟨⟨by decide, by decide, by decide⟩,
    (merge_respects_sentence_boundaries _ _).2.1 '。' (by decide) (by decide) (by decide)⟩,
   ⟨⟨by decide, by decide⟩,
    (merge_respects_sentence_boundaries _ _).2.2 (by decide) (by decide)⟩⟩

/-- Acceptance conditions implied by a successful horizontal-proximity test. -/
theorem checkHorizontalProximity_true_elim {b1 b2 : Box}
    (h : checkHorizontalProximity b1 b2 = true) :
    0 < b1.y1 - b1.y0 ∧ 0 < b2.y1 - b2.y0 ∧
    0 < ((b1.y1 - b1.y0) + (b2.y1 - b2.y0)) / 2 ∧
    |(b1.y0 + b1.y1) / 2 - (b2.y0 + b2.y1) / 2| ≤
      ((b1.y1 - b1.y0) + (b2.y1 - b2.y0)) / 2 * (3 / 5) ∧
    (b1.x1 ≤ b2.x0 →
      b2.x0 - b1.x1 ≤ ((b1.y1 - b1.y0) + (b2.y1 - b2.y0)) / 2 * (3 / 2)) ∧
    (b2.x0 < b1.x1 → b2.x0 < b1.x0 →
      b1.x0 - b2.x0 ≤ ((b1.y1 - b1.y0) + (b2.y1 - b2.y0)) / 2 * (1 / 2)) := by
  unfold checkHorizontalProximity at h
  by_cases c1 : b1.x0 > b2.x0 ∧ b1.x1 > b2.x1 ∧ b1.x0 > b2.x1
  · rw [if_pos c1] at h; cases h
  rw [if_neg c1] at h
  by_cases c2 : b1.y1 - b1.y0 ≤ 0 ∨ b2.y1 - b2.y0 ≤ 0
  · rw [if_pos c2] at h; cases h
  rw [if_neg c2] at h
  push_neg at c2
  by_cases c3 : ((b1.y1 - b1.y0) + (b2.y1 - b2.y0)) / 2 ≤ 0
  · rw [if_pos c3] at h; cases h
  rw [if_neg c3] at h
  push_neg at c3
  by_cases c4 : |(b1.y0 + b1.y1) / 2 - (b2.y0 + b2.y1) / 2| >
      ((b1.y1 - b1.y0) + (b2.y1 - b2.y0)) / 2 * (3 / 5)
  · rw [if_pos c4] at h; cases h
  rw [if_neg c4] at h
  push_neg at c4
  refine ⟨c2.1, c2.2, c3, c4, ?_, ?_⟩
  · intro hgap
    rw [if_pos hgap] at h
    by_cases c5 : b2.x0 - b1.x1 > ((b1.y1 - b1.y0) + (b2.y1 - b2.y0)) / 2 * (3 / 2)
    · rw [if_pos c5] at h; cases h
    · push_neg at c5; exact c5
  · intro hov hstart
    rw [if_neg (by linarith : ¬ b1.x1 ≤ b2.x0)] at h
    by_cases c6 : b2.x0 < b1.x0 ∧
        b1.x0 - b2.x0 > ((b1.y1 - b1.y0) + (b2.y1 - b2.y0)) / 2 * (1 / 2)
    · rw [if_pos c6] at h; cases h
    · push_neg at c6; exact c6 hstart

/-- C4: the horizontal-proximity test rejects whenever the vertical center
difference exceeds `0.6 ×` the average of the two box heights (hence in
particular at a `2 ×` average-height separation), whenever a strict horizontal
gap exceeds `1.5 ×` the average height, and whenever the candidate starts
before the left box's left edge by more than `0.5 ×` the average height. -/
theorem proximity_rejects_distant (b1 b2 : Box) :
    (|(b1.y0 + b1.y1) / 2 - (b2.y0 + b2.y1) / 2| >
        ((b1.y1 - b1.y0) + (b2.y1 - b2.y0)) / 2 * (3 / 5) →
      checkHorizontalProximity b1 b2 = false) ∧
    (|(b1.y0 + b1.y1) / 2 - (b2.y0 + b2.y1) / 2| =
        2 * (((b1.y1 - b1.y0) + (b2.y1 - b2.y0)) / 2) →
      checkHorizontalProximity b1 b2 = false) ∧
    (b2.x0 - b1.x1 > ((b1.y1 - b1.y0) + (b2.y1 - b2.y0)) / 2 * (3 / 2) →
      checkHorizontalProximity b1 b2 = false) ∧
    (b1.x0 ≤ b1.x1 →
      b1.x0 - b2.x0 > ((b1.y1 - b1.y0) + (b2.y1 - b2.y0)) / 2 * (1 / 2) →
      checkHorizontalProximity b1 b2 = false) := by
  refine ⟨?_, ?_, ?_, ?_⟩ <;> intro h
  · by_contra hne
    obtain ⟨_, _, _, hv, _, _⟩ :=
      checkHorizontalProximity_true_elim (eq_true_of_ne_false hne)
    linarith
  · by_contra hne
    obtain ⟨_, _, havg, hv, _, _⟩ :=
      checkHorizontalProximity_true_elim (eq_true_of_ne_false hne)
    rw [h] at hv
    linarith
  · by_contra hne
    obtain ⟨_, _, havg, _, hgap, _⟩ :=
      checkHorizontalProximity_true_elim (eq_true_of_ne_false hne)
    have hlt : b1.x1 ≤ b2.x0 := by linarith
    linarith [hgap hlt]
  · intro h2
    by_contra hne
    obtain ⟨_, _, havg, _, _, hov⟩ :=
      checkHorizontalProximity_true_elim (eq_true_of_ne_false hne)
    have hx0 : b2.x0 < b1.x0 := by linarith
    have hx1 : b2.x0 < b1.x1 := by linarith
    linarith [hov hx1 hx0]

/-- C4 witness: concrete boxes hitting each rejection clause.  The first two
boxes have identical horizontal extent but vertical center separation `30`
against average height `10` (`> 0.6 × 10`, and exactly `2 ×` average with
separation `20`); the third pair has a horizontal gap `40 > 1.5 × 10`; the
fourth pair has the candidate starting `20 > 0.5 × 10` before the left box. -/
theorem proximity_rejects_distant_witness :
    ((|((0:ℚ) + 10) / 2 - ((30:ℚ) + 40) / 2| >
        (((10:ℚ) - 0) + ((40:ℚ) - 30)) / 2 * (3 / 5)) ∧
      checkHorizontalProximity ⟨0,0,10,10⟩ ⟨0,30,10,40⟩ = false) ∧
    ((|((0:ℚ) + 10) / 2 - ((20:ℚ) + 30) / 2| =
        2 * ((((10:ℚ) - 0) + ((30:ℚ) - 20)) / 2)) ∧
      checkHorizontalProximity ⟨0,0,10,10⟩ ⟨0,20,10,30⟩ = false) ∧
    (((50:ℚ) - 10 > (((10:ℚ) - 0) + ((10:ℚ) - 0)) / 2 * (3 / 2)) ∧
      checkHorizontalProximity ⟨0,0,10,10⟩ ⟨50,0,60,10⟩ = false) ∧
    (((30:ℚ) ≤ 40 ∧ (30:ℚ) - 10 > (((10:ℚ) - 0) + ((10:ℚ) - 0)) / 2 * (1 / 2)) ∧
      checkHorizontalProximity ⟨30,0,40,10⟩ ⟨10,0,35,10⟩ = false) :=
  ⟨⟨by decide, (proximity_rejects_distant ⟨0,0,10,10⟩ ⟨0,30,10,40⟩).1 (by decide)⟩,
   ⟨by decide, (proximity_rejects_distant ⟨0,0,10,10⟩ ⟨0,20,10,30⟩).2.1 (by decide)⟩,
   ⟨by decide, (proximity_rejects_distant ⟨0,0,10,10⟩ ⟨50,0,60,10⟩).2.2.1 (by decide)⟩,
   ⟨⟨by decide, by decide⟩,
    (proximity_rejects_distant ⟨30,0,40,10⟩ ⟨10,0,35,10⟩).2.2.2 (by decide) (by decide)⟩⟩

/-- C7: merging the two concrete fragments `"配信"` at `[10,10,40,30]` and
`"開始"` at `[42,11,70,29]` under the `"ja"` hint yields exactly one span
`("配信開始", [10,10,70,30])` with no joiner space. -/
theorem mergeLines_concrete_ja :
    mergeLines [⟨[(10,10),(40,10),(40,30),(10,30)], ['配','信']⟩,
                ⟨[(42,11),(70,11),(70,29),(42,29)], ['開','始']⟩] "ja" =
      [(['配','信','開','始'], ⟨10,10,70,30⟩)] := by decide

/-- Multiset of characters over the texts of a fragment list. -/
def blockChars (l : List OcrBlock) : Multiset Char :=
  (l.map (fun b => (b.text : Multiset Char))).sum

/-- Multiset of characters over the texts of merged output spans. -/
def spanChars (l : List (List Char × Box)) : Multiset Char :=
  (l.map (fun p => (p.1 : Multiset Char))).sum

theorem joinerFor_nil_or_space (lang : String) (cur next : List Char) :
    joinerFor lang cur next = [] ∨ joinerFor lang cur next = [' '] := by
  unfold joinerFor
  split_ifs <;> simp

theorem blockChars_cons (b : OcrBlock) (l : List OcrBlock) :
    blockChars (b :: l) = (b.text : Multiset Char) + blockChars l := by
  simp [blockChars]

theorem spanChars_cons (p : List Char × Box) (l : List (List Char × Box)) :
    spanChars (p :: l) = (p.1 : Multiset Char) + spanChars l := by
  simp [spanChars]

theorem mergeSpan_chars (lang : String) (l : List OcrBlock) :
    ∀ (txt : List Char) (bb : Box) (last : OcrBlock),
    ∃ n : ℕ, ((mergeSpan lang txt bb last l).text : Multiset Char) +
        blockChars (mergeSpan lang txt bb last l).rest =
      (txt : Multiset Char) + blockChars l + Multiset.replicate n ' ' := by
  induction l with
  | nil =>
    intro txt bb last
    exact ⟨0, by simp [mergeSpan, blockChars]⟩
  | cons b rest ih =>
    intro txt bb last
    rw [mergeSpan]
    split
    · obtain ⟨n, hn⟩ := ih (txt ++ joinerFor lang txt b.text ++ b.text) (boxUnion bb b.bbox) b
      rcases joinerFor_nil_or_space lang txt b.text with hj | hj
      · refine ⟨n, ?_⟩
        rw [hn, hj, blockChars_cons]
        simp only [List.append_nil, ← Multiset.coe_add]
        abel
      · refine ⟨n + 1, ?_⟩
        rw [hn, hj, blockChars_cons]
        simp only [← Multiset.coe_add, Multiset.replicate_succ,
          ← Multiset.singleton_add, Multiset.coe_singleton]
        abel
    · exact ⟨0, by rw [blockChars_cons]; simp⟩

theorem mergeAllF_chars (lang : String) :
    ∀ (fuel : ℕ) (l : List OcrBlock), l.length ≤ fuel →
      ∃ n : ℕ, spanChars (mergeAllF lang fuel l) =
        blockChars l + Multiset.replicate n ' ' := by
  intro fuel
  induction fuel with
  | zero =>
    intro l hl
    match l with
    | [] => exact ⟨0, by simp [mergeAllF, blockChars, spanChars]⟩
    | _ :: _ => simp at hl
  | succ f ih =>
    intro l hl
    match l with
    | [] => exact ⟨0, by simp [mergeAllF, blockChars, spanChars]⟩
    | b :: rest =>
      obtain ⟨n₁, h₁⟩ := mergeSpan_chars lang rest b.text b.bbox b
      obtain ⟨n₂, h₂⟩ := ih (mergeSpan lang b.text b.bbox b rest).rest
        (Nat.le_trans (mergeSpan_rest_length lang b.text b.bbox b rest)
          (Nat.le_of_succ_le_succ hl))
      refine ⟨n₁ + n₂, ?_⟩
      show spanChars (((mergeSpan lang b.text b.bbox b rest).text,
          (mergeSpan lang b.text b.bbox b rest).bbox) ::
            mergeAllF lang f (mergeSpan lang b.text b.bbox b rest).rest) =
        blockChars (b :: rest) + Multiset.replicate (n₁ + n₂) ' '
      rw [spanChars_cons, h₂, blockChars_cons, Multiset.replicate_add,
        ← add_assoc, h₁]
      abel

theorem blockChars_perm {l l' : List OcrBlock} (h : l.Perm l') :
    blockChars l = blockChars l' :=
  List.Perm.sum_eq (List.Perm.map _ h)

/-- C5: merging never loses text — the multiset of characters over all output
span texts equals the multiset over all non-discarded (parsed) input fragment
texts, plus the inserted join spaces. -/
theorem merge_never_loses_text (items : List RawItem) (lang : String) :
    ∃ n : ℕ, spanChars (mergeLines items lang) =
      blockChars (items.enum.filterMap (fun p => parseItem p.1 p.2)) +
        Multiset.replicate n ' ' := by
  unfold mergeLines mergeAll
  obtain ⟨n, hn⟩ := mergeAllF_chars lang
    (List.insertionSort blockLE (items.enum.filterMap (fun p => parseItem p.1 p.2))).length
    (List.insertionSort blockLE (items.enum.filterMap (fun p => parseItem p.1 p.2)))
    (Nat.le_refl _)
  refine ⟨n, ?_⟩
  rw [hn, blockChars_perm (List.perm_insertionSort blockLE _)]

/-! ### `ProcessedBlock` construction and angle mutation
(`src/src/image_processor.py` lines 22-52, `src/src/ui/main_window.py`). -/

/-- The persistent user-editable text block (`ProcessedBlock.__init__`,
image_processor.py lines 22-52).  The `id` fallback to `time_ns` is modelled
as an opaque numeric id parameter. -/
structure ProcessedBlock where
  id : ℕ
  original_text : List Char
  translated_text : List Char
  bbox : Box
  orientation : String
  font_size_category : String
  font_size_pixels : ℤ
  angle : ℚ
  text_align : String
deriving DecidableEq, Repr

/-- Embedding of `ProcessedBlock.__init__` (image_processor.py lines 22-52):
orientation and font-size category are normalized to known values, the text
alignment defaults by orientation, and `angle` is stored exactly as supplied
(the Python constructor performs no normalization on it). -/
def mkProcessedBlock (id : ℕ) (original translated : List Char) (bbox : Box)
    (orientation : String) (category : String) (fontPx : ℤ) (angle : ℚ)
    (textAlign : Option String) : ProcessedBlock :=
  let orientationN :=
    if orientation ∈ ["horizontal", "vertical_ltr", "vertical_rtl"] then orientation
    else "horizontal"
  let categoryN :=
    if category ∈ ["very_small", "small", "medium", "large", "very_large"] then category
    else "medium"
  let alignN :=
    match textAlign with
    | some a => a
    | none => if orientationN ≠ "horizontal" then "right" else "left"
  ⟨id, original, translated, bbox, orientationN, categoryN, fontPx, angle, alignN⟩

/-- Rotation-drag mutation (main_window.py line 474):
`angle = (initial + delta) % 360.0`. -/
def rotationAngleUpdate (initial delta : ℚ) : ℚ :=
  pyMod (initial + delta) 360

/-- Angle spin-box mutation (main_window.py line 860): the spin-box value
(range `[-360, 360]`, line 820) is stored unchanged. -/
def spinAngleUpdate (v : ℚ) : ℚ := v

/-- C10 counterexample: an angle of `400` supplied at construction is stored
as `400`, which does not lie in `[0, 360)`; likewise the spin-box mutation
stores `-90` unchanged. -/
theorem angle_not_normalized_at_construction :
    (mkProcessedBlock 0 [] [] ⟨0,0,1,1⟩ "horizontal" "medium" 22 400 none).angle
        = 400 ∧
    ¬ ((400 : ℚ) < 360) ∧
    spinAngleUpdate (-90) = -90 ∧ ¬ ((0 : ℚ) ≤ -90) := by
  refine ⟨rfl, by norm_num, rfl, by norm_num⟩

/-- C10 amended: the angle defaults to 0, and the rotation-drag mutation
normalizes into `[0, 360)`; but values supplied at construction or through
the angle spin-box are stored unchanged. -/
theorem angle_default_zero_and_rotation_normalized :
    (∀ (id : ℕ) (o t : List Char) (bb : Box) (orient cat : String) (px : ℤ)
      (ta : Option String),
      (mkProcessedBlock id o t bb orient cat px 0 ta).angle = 0) ∧
    (∀ initial delta : ℚ,
      0 ≤ rotationAngleUpdate initial delta ∧
        rotationAngleUpdate initial delta < 360) ∧
    (∀ v : ℚ, spinAngleUpdate v = v) ∧
    (∀ (id : ℕ) (o t : List Char) (bb : Box) (orient cat : String) (px : ℤ)
      (a : ℚ) (ta : Option String),
      (mkProcessedBlock id o t bb orient cat px a ta).angle = a) := by
  refine ⟨fun _ _ _ _ _ _ _ _ => rfl, ?_, fun _ => rfl, fun _ _ _ _ _ _ _ _ _ => rfl⟩
  intro initial delta
  unfold rotationAngleUpdate pyMod
  constructor
  · have h := Int.fract_nonneg ((initial + delta) / 360)
    rw [Int.fract] at h
    have h360 : (360 : ℚ) > 0 := by norm_num
    nlinarith [h]
  · have h := Int.fract_lt_one ((initial + delta) / 360)
    rw [Int.fract] at h
    nlinarith [h]

/-! ### Text wrapping engine (`src/utils/font_utils.py` lines 167-342).

PIL-dependent metrics are abstracted: `w` models `draw.textlength(·, font)`
on newline-free strings (PIL raises `ValueError` on text containing `"\n"`,
which the guard path catches), `baseLineH` models the spacing-free part of
`get_font_line_height` (its final line adds the spacing argument), `colW`
models `font.getlength("M")`. -/

/-- Embedding of `get_font_line_height` (font_utils.py lines 108-164):
with a font the result is the metric-derived positive base plus the supplied
extra spacing; without a font it is `int(size * 1.2) + spacing` (line 110). -/
def getFontLineHeight (fontOk : Bool) (baseLineH : ℤ) (size : ℤ) (sp : ℤ) : ℤ :=
  if fontOk then baseLineH + sp else pyInt ((size : ℚ) * (6 / 5)) + sp

/-- Measured width of a candidate line (font_utils.py lines 228-230, 237-240):
`textlength` plus `charSpacing × (len − 1)` when the spacing is nonzero and
the line has more than one character. -/
def measuredWidth (w : List Char → ℚ) (sp : ℤ) (l : List Char) : ℚ :=
  w l + (if l.length > 1 ∧ sp ≠ 0 then (sp : ℚ) * ((l.length : ℚ) - 1) else 0)

/-- State of the horizontal character-greedy wrapping loop
(font_utils.py lines 211-269). -/
structure HWrapState where
  segs : List (List Char)
  cur : List Char
  maxw : ℚ
deriving Repr

/-- One step of the horizontal wrapping loop (font_utils.py lines 223-263):
a newline flushes the current line and records an empty manual-break segment;
otherwise the candidate line is measured, extended if it fits, and flushed
with the overflowing character starting the next line if not. -/
def hWrapStep (w : List Char → ℚ) (sp : ℤ) (maxDim : ℤ) (st : HWrapState)
    (c : Char) : HWrapState :=
  if c = '\n' then
    if st.cur ≠ [] then
      ⟨st.segs ++ [st.cur, []], [], max st.maxw (measuredWidth w sp st.cur)⟩
    else ⟨st.segs ++ [[]], [], st.maxw⟩
  else if measuredWidth w sp (st.cur ++ [c]) ≤ (maxDim : ℚ) then
    ⟨st.segs, st.cur ++ [c], st.maxw⟩
  else if st.cur ≠ [] then
    ⟨st.segs ++ [st.cur], [c], max st.maxw (measuredWidth w sp st.cur)⟩
  else ⟨st.segs, [c], st.maxw⟩

/-- The horizontal wrapping loop over the whole text. -/
def hWrapRun (w : List Char → ℚ) (sp : ℤ) (maxDim : ℤ) (text : List Char) :
    HWrapState :=
  text.foldl (hWrapStep w sp maxDim) ⟨[], [], 0⟩

/-- Segment list after the trailing-line flush (font_utils.py lines 265-269). -/
def hFinSegs (st : HWrapState) : List (List Char) :=
  if st.cur ≠ [] then st.segs ++ [st.cur] else st.segs

/-- Maximum achieved width after the trailing-line flush. -/
def hFinMaxw (w : List Char → ℚ) (sp : ℤ) (st : HWrapState) : ℚ :=
  if st.cur ≠ [] then max st.maxw (measuredWidth w sp st.cur) else st.maxw

/-- Trailing-line flush and degenerate fallback of the horizontal path
(font_utils.py lines 265-274). -/
def hWrapFinish (w : List Char → ℚ) (sp : ℤ) (st : HWrapState)
    (text : List Char) : List (List Char) × ℚ :=
  if hFinSegs st = [] ∧ text ≠ [] then ([text], measuredWidth w sp text)
  else (hFinSegs st, hFinMaxw w sp st)

/-- State of the vertical column-filling loop (font_utils.py lines 297-324). -/
structure VWrapState where
  segs : List (List Char)
  cur : List Char
  curH : ℤ
  maxh : ℤ
deriving Repr

/-- One step of the vertical wrapping loop (font_utils.py lines 301-320):
a newline flushes the current column and records an empty manual-break
column; otherwise the character is added if the column is empty or the next
cell still fits, and otherwise starts a new column. -/
def vWrapStep (cellH : ℤ) (maxDim : ℤ) (st : VWrapState) (c : Char) :
    VWrapState :=
  if c = '\n' then
    if st.cur ≠ [] then
      ⟨st.segs ++ [st.cur, []], [], 0, max st.maxh st.curH⟩
    else ⟨st.segs ++ [[]], [], 0, st.maxh⟩
  else if st.cur = [] ∨ st.curH + cellH ≤ maxDim then
    ⟨st.segs, st.cur ++ [c], st.curH + cellH, st.maxh⟩
  else ⟨st.segs ++ [st.cur], [c], cellH, max st.maxh st.curH⟩

/-- The vertical wrapping loop over the whole text. -/
def vWrapRun (cellH : ℤ) (maxDim : ℤ) (text : List Char) : VWrapState :=
  text.foldl (vWrapStep cellH maxDim) ⟨[], [], 0, 0⟩

/-- Column list after the trailing-column flush (font_utils.py lines 322-324). -/
def vFinSegs (st : VWrapState) : List (List Char) :=
  if st.cur ≠ [] then st.segs ++ [st.cur] else st.segs

/-- Maximum achieved column height after the trailing-column flush. -/
def vFinMaxh (st : VWrapState) : ℤ :=
  if st.cur ≠ [] then max st.maxh st.curH else st.maxh

/-- Trailing-column flush and degenerate fallback of the vertical path
(font_utils.py lines 322-328). -/
def vWrapFinish (cellH : ℤ) (st : VWrapState) (text : List Char) :
    List (List Char) × ℤ :=
  if vFinSegs st = [] ∧ text ≠ [] then ([text], (text.length : ℤ) * cellH)
  else (vFinSegs st, vFinMaxh st)

/-- The single-column visual width chain of the vertical path
(font_utils.py lines 290-295): `font.getlength("M")`, falling back to the
font size and then to the default size when zero. -/
def colWidthMetric (colW : ℚ) (fontSize defaultSize : ℤ) : ℚ :=
  let m := if colW = 0 then (fontSize : ℚ) else colW
  if m = 0 then (defaultSize : ℚ) else m

/-- Wrapping orientation; the source compares `orientation == "horizontal"`
and treats every other string as vertical. -/
inductive WrapDir where
  | horizontal
  | vertical
deriving DecidableEq, Repr

/-- Result quadruple of `wrap_text_pil`: segments, total primary dimension,
secondary dimension per segment, and maximum achieved dimension. -/
structure WrapResult where
  segments : List (List Char)
  totalPrimary : ℤ
  secondaryDim : ℤ
  maxAchieved : ℤ
deriving DecidableEq, Repr

/-- Embedding of `wrap_text_pil` (font_utils.py lines 167-342).  The dead
`words = text.split(' ')` assignment (line 217) is omitted.  In the guard
path, `draw.textlength` on text containing a newline raises `ValueError`,
caught on line 195 and replaced by `len(text) * default_font_size // 2`. -/
def wrapTextPil (fontOk : Bool) (w : List Char → ℚ) (baseLineH : ℤ) (colW : ℚ)
    (fontSize : ℤ) (text : List Char) (maxDim : ℤ) (dir : WrapDir)
    (charSp lineColSp : ℤ) : WrapResult :=
  let defaultFontSize : ℤ := if fontOk then fontSize else 16
  if text = [] ∨ maxDim ≤ 0 ∨ ¬ fontOk then
    match dir with
    | .horizontal =>
      let lineH := getFontLineHeight fontOk baseLineH defaultFontSize lineColSp
      let approx : ℚ :=
        if text ≠ [] ∧ fontOk then
          if '\n' ∈ text then ((Int.fdiv ((text.length : ℤ) * defaultFontSize) 2 : ℤ) : ℚ)
          else w text
        else 0
      ⟨if text ≠ [] then [text] else [],
       if text ≠ [] then lineH else 0, lineH, pyInt approx⟩
    | .vertical =>
      let charH := getFontLineHeight fontOk baseLineH defaultFontSize charSp
      let avgW : ℚ :=
        if text ≠ [] ∧ fontOk then
          (if colW = 0 then (defaultFontSize : ℚ) else colW)
        else (defaultFontSize : ℚ)
      ⟨if text ≠ [] then [text] else [],
       if text ≠ [] then pyInt avgW else 0, charH,
       if text ≠ [] then (text.length : ℤ) * charH else 0⟩
  else
    match dir with
    | .horizontal =>
      let lineH := getFontLineHeight true baseLineH defaultFontSize lineColSp
      let p := hWrapFinish w charSp (hWrapRun w charSp maxDim text) text
      let total : ℤ := if p.1 ≠ [] then (p.1.length : ℤ) * lineH else 0
      ⟨p.1, if text = [] then 0 else total, lineH, pyInt p.2⟩
    | .vertical =>
      let cellH := getFontLineHeight true baseLineH defaultFontSize charSp
      let colWeff := colWidthMetric colW fontSize defaultFontSize
      let p := vWrapFinish cellH (vWrapRun cellH maxDim text) text
      let n : ℤ := (p.1.length : ℤ)
      let total : ℚ := if p.1 ≠ [] then
          (n : ℚ) * colWeff + (if n > 1 then ((n : ℚ) - 1) * (lineColSp : ℚ) else 0)
        else 0
      ⟨p.1, if text = [] then 0 else pyInt total, cellH, p.2⟩

theorem pyInt_zero : pyInt 0 = 0 := by unfold pyInt; norm_num

/-- C9: wrapping edge cases — empty text yields an empty segment list with
zero total and zero achieved dimension, and non-positive `maxDim` (or a
missing font) with non-empty text yields the whole text as a single
unwrapped segment. -/
theorem wrap_edge_cases (fontOk : Bool) (w : List Char → ℚ) (baseLineH : ℤ)
    (colW : ℚ) (fontSize : ℤ) (text : List Char) (maxDim : ℤ)
    (dir : WrapDir) (charSp lineColSp : ℤ) :
    ((wrapTextPil fontOk w baseLineH colW fontSize [] maxDim dir charSp
        lineColSp).segments = [] ∧
     (wrapTextPil fontOk w baseLineH colW fontSize [] maxDim dir charSp
        lineColSp).totalPrimary = 0 ∧
     (wrapTextPil fontOk w baseLineH colW fontSize [] maxDim dir charSp
        lineColSp).maxAchieved = 0) ∧
    (text ≠ [] → (maxDim ≤ 0 ∨ fontOk = false) →
      (wrapTextPil fontOk w baseLineH colW fontSize text maxDim dir charSp
        lineColSp).segments = [text]) := by
  constructor
  · unfold wrapTextPil
    cases dir <;> simp [pyInt_zero]
  · intro ht hguard
    unfold wrapTextPil
    have hg : text = [] ∨ maxDim ≤ 0 ∨ ¬ fontOk = true := by
      rcases hguard with h | h
      · exact Or.inr (Or.inl h)
      · exact Or.inr (Or.inr (by simp [h]))
    rw [if_pos hg]
    cases dir <;> simp [ht]

/-- C9 witness: empty text, and `maxDim = 0` with the text `"ab"`. -/
theorem wrap_edge_cases_witness :
    ((['a','b'] : List Char) ≠ [] ∧ ((0 : ℤ) ≤ 0 ∨ true = false)) ∧
    (wrapTextPil true (fun l => (l.length : ℚ)) 20 8 16 ['a','b'] 0
      WrapDir.horizontal 0 0).segments = [['a','b']] :=
  ⟨⟨by decide, Or.inl (by decide)⟩,
   (wrap_edge_cases true (fun l => (l.length : ℚ)) 20 8 16 ['a','b'] 0
      WrapDir.horizontal 0 0).2 (by decide) (Or.inl (by decide))⟩

theorem hWrap_join (w : List Char → ℚ) (sp maxDim : ℤ) :
    ∀ (text : List Char) (st : HWrapState),
      (text.foldl (hWrapStep w sp maxDim) st).segs.flatten ++
          (text.foldl (hWrapStep w sp maxDim) st).cur =
        st.segs.flatten ++ st.cur ++ text.filter (fun c => c ≠ '\n') := by
  intro text
  induction text with
  | nil => intro st; simp
  | cons c t ih =>
    intro st
    rw [List.foldl_cons, ih (hWrapStep w sp maxDim st c)]
    have hstep : (hWrapStep w sp maxDim st c).segs.flatten ++
        (hWrapStep w sp maxDim st c).cur =
        st.segs.flatten ++ st.cur ++ (if c = '\n' then [] else [c]) := by
      unfold hWrapStep
      by_cases hnl : c = '\n'
      · by_cases hcur : st.cur ≠ [] <;> simp [hnl, hcur, not_not.mp]
      · rw [if_neg hnl]
        by_cases hfit : measuredWidth w sp (st.cur ++ [c]) ≤ (maxDim : ℚ)
        · simp [hfit, hnl]
        · rw [if_neg hfit]
          by_cases hcur : st.cur ≠ [] <;> simp [hcur, hnl, not_not.mp]
    rw [hstep]
    by_cases hnl : c = '\n' <;> simp [hnl, List.filter_cons]

theorem vWrap_join (cellH maxDim : ℤ) :
    ∀ (text : List Char) (st : VWrapState),
      (text.foldl (vWrapStep cellH maxDim) st).segs.flatten ++
          (text.foldl (vWrapStep cellH maxDim) st).cur =
        st.segs.flatten ++ st.cur ++ text.filter (fun c => c ≠ '\n') := by
  intro text
  induction text with
  | nil => intro st; simp
  | cons c t ih =>
    intro st
    rw [List.foldl_cons, ih (vWrapStep cellH maxDim st c)]
    have hstep : (vWrapStep cellH maxDim st c).segs.flatten ++
        (vWrapStep cellH maxDim st c).cur =
        st.segs.flatten ++ st.cur ++ (if c = '\n' then [] else [c]) := by
      unfold vWrapStep
      by_cases hnl : c = '\n'
      · by_cases hcur : st.cur ≠ [] <;> simp [hnl, hcur, not_not.mp]
      · rw [if_neg hnl]
        by_cases hfit : st.cur = [] ∨ st.curH + cellH ≤ maxDim
        · simp [hfit, hnl]
        · rw [if_neg hfit]
          simp [hnl]
    rw [hstep]
    by_cases hnl : c = '\n' <;> simp [hnl, List.filter_cons]

theorem join_filter_ne_nil (l : List (List Char)) :
    (l.filter (fun s => !s.isEmpty)).flatten = l.flatten := by
  induction l with
  | nil => rfl
  | cons a t ih =>
    by_cases ha : a = [] <;> simp [List.filter_cons, ha, ih]

theorem filter_filter_of_imp {p q : Char → Bool}
    (h : ∀ a, p a = true → q a = true) (l : List Char) :
    (l.filter q).filter p = l.filter p := by
  induction l with
  | nil => rfl
  | cons a t ih =>
    rw [List.filter_cons]
    by_cases hq : q a = true
    · rw [if_pos hq, List.filter_cons, List.filter_cons, ih]
    · rw [if_neg hq, List.filter_cons, if_neg (fun hp => hq (h a hp)), ih]

theorem filter_nonWS_of_filter_newline (t : List Char) :
    (t.filter (fun c => c ≠ '\n')).filter (fun c => !c.isWhitespace) =
      t.filter (fun c => !c.isWhitespace) := by
  refine filter_filter_of_imp (fun a ha => ?_) t
  by_cases hnl : a = '\n'
  · subst hnl
    exact absurd ha (by decide)
  · simpa using hnl

theorem hWrapFinish_flatten (w : List Char → ℚ) (sp maxDim : ℤ)
    (text : List Char) :
    (hWrapFinish w sp (hWrapRun w sp maxDim text) text).1.flatten =
        text.filter (fun c => c ≠ '\n') ∨
      (hWrapFinish w sp (hWrapRun w sp maxDim text) text).1 = [text] := by
  unfold hWrapFinish
  split
  · exact Or.inr rfl
  · left
    have hj := hWrap_join w sp maxDim text ⟨[], [], 0⟩
    simp only [HWrapState.segs, HWrapState.cur, List.flatten_nil,
      List.nil_append] at hj
    unfold hFinSegs
    by_cases hcur : (hWrapRun w sp maxDim text).cur ≠ []
    · rw [if_pos hcur, List.flatten_append]
      simpa using hj
    · rw [if_neg hcur]
      rw [not_not] at hcur
      rw [show hWrapRun w sp maxDim text =
        List.foldl (hWrapStep w sp maxDim) ⟨[], [], 0⟩ text from rfl] at hcur
      rw [hcur, List.append_nil] at hj
      exact hj

theorem vWrapFinish_flatten (cellH maxDim : ℤ) (text : List Char) :
    (vWrapFinish cellH (vWrapRun cellH maxDim text) text).1.flatten =
        text.filter (fun c => c ≠ '\n') ∨
      (vWrapFinish cellH (vWrapRun cellH maxDim text) text).1 = [text] := by
  unfold vWrapFinish
  split
  · exact Or.inr rfl
  · left
    have hj := vWrap_join cellH maxDim text ⟨[], [], 0, 0⟩
    simp only [VWrapState.segs, VWrapState.cur, List.flatten_nil,
      List.nil_append] at hj
    unfold vFinSegs
    by_cases hcur : (vWrapRun cellH maxDim text).cur ≠ []
    · rw [if_pos hcur, List.flatten_append]
      simpa using hj
    · rw [if_neg hcur]
      rw [not_not] at hcur
      rw [show vWrapRun cellH maxDim text =
        List.foldl (vWrapStep cellH maxDim) ⟨[], [], 0, 0⟩ text from rfl] at hcur
      rw [hcur, List.append_nil] at hj
      exact hj

/-- C6: wrapping round-trips — concatenating the non-empty segments (the
empty manual-break markers skipped) reproduces the input text up to
whitespace/newline differences, for both orientations. -/
theorem wrap_round_trip (fontOk : Bool) (w : List Char → ℚ) (baseLineH : ℤ)
    (colW : ℚ) (fontSize : ℤ) (text : List Char) (maxDim : ℤ)
    (dir : WrapDir) (charSp lineColSp : ℤ) :
    (((wrapTextPil fontOk w baseLineH colW fontSize text maxDim dir charSp
        lineColSp).segments.filter (fun s => !s.isEmpty)).flatten.filter
          (fun c => !c.isWhitespace)) =
      text.filter (fun c => !c.isWhitespace) := by
  rw [join_filter_ne_nil]
  by_cases hg : text = [] ∨ maxDim ≤ 0 ∨ ¬ fontOk = true
  · unfold wrapTextPil
    rw [if_pos hg]
    by_cases ht : text = [] <;> cases dir <;> simp [ht]
  · unfold wrapTextPil
    rw [if_neg hg]
    cases dir
    · show ((hWrapFinish w charSp (hWrapRun w charSp maxDim text) text).1.flatten.filter
          (fun c => !c.isWhitespace)) = _
      rcases hWrapFinish_flatten w charSp maxDim text with h | h
      · rw [h, filter_nonWS_of_filter_newline]
      · rw [h]
        simp
    · show ((vWrapFinish (getFontLineHeight true baseLineH
            (if fontOk = true then fontSize else 16) charSp)
          (vWrapRun (getFontLineHeight true baseLineH
            (if fontOk = true then fontSize else 16) charSp) maxDim text)
              text).1.flatten.filter (fun c => !c.isWhitespace)) = _
      rcases vWrapFinish_flatten (getFontLineHeight true baseLineH
          (if fontOk = true then fontSize else 16) charSp) maxDim text with h | h
      · rw [h, filter_nonWS_of_filter_newline]
      · rw [h]
        simp

/-- A horizontal segment fits the width budget, or is a single character. -/
def fitsH (w : List Char → ℚ) (sp maxDim : ℤ) (s : List Char) : Prop :=
  measuredWidth w sp s ≤ (maxDim : ℚ) ∨ s.length = 1

/-- A vertical column fits the height budget, or is a single character. -/
def fitsV (cellH maxDim : ℤ) (s : List Char) : Prop :=
  (s.length : ℤ) * cellH ≤ maxDim ∨ s.length = 1

theorem fitsH_nil {w : List Char → ℚ} {sp maxDim : ℤ} (hm : 0 < maxDim)
    (hw : w [] = 0) : fitsH w sp maxDim [] := by
  left
  unfold measuredWidth
  simp [hw]
  exact_mod_cast le_of_lt hm

theorem fitsV_nil {cellH maxDim : ℤ} (hm : 0 < maxDim) :
    fitsV cellH maxDim [] := by
  left; simp; omega

theorem hWrap_fits (w : List Char → ℚ) (sp maxDim : ℤ) (hm : 0 < maxDim)
    (hw : w [] = 0) :
    ∀ (text : List Char) (st : HWrapState),
      (∀ s ∈ st.segs, fitsH w sp maxDim s) → fitsH w sp maxDim st.cur →
      (∀ s ∈ (text.foldl (hWrapStep w sp maxDim) st).segs, fitsH w sp maxDim s) ∧
        fitsH w sp maxDim (text.foldl (hWrapStep w sp maxDim) st).cur := by
  intro text
  induction text with
  | nil => exact fun st hs hc => ⟨hs, hc⟩
  | cons c t ih =>
    intro st hs hc
    rw [List.foldl_cons]
    apply ih
    · intro s hsm
      unfold hWrapStep at hsm
      by_cases hnl : c = '\n'
      · rw [if_pos hnl] at hsm
        by_cases hcur : st.cur ≠ []
        · rw [if_pos hcur] at hsm
          simp only [HWrapState.segs, List.mem_append, List.mem_cons,
            List.mem_singleton, List.not_mem_nil, or_false] at hsm
          rcases hsm with hsm | hsm | hsm
          · exact hs s hsm
          · exact hsm ▸ hc
          · exact hsm ▸ fitsH_nil hm hw
        · rw [if_neg hcur] at hsm
          simp only [HWrapState.segs, List.mem_append, List.mem_singleton] at hsm
          rcases hsm with hsm | hsm
          · exact hs s hsm
          · exact hsm ▸ fitsH_nil hm hw
      · rw [if_neg hnl] at hsm
        by_cases hfit : measuredWidth w sp (st.cur ++ [c]) ≤ (maxDim : ℚ)
        · rw [if_pos hfit] at hsm
          exact hs s hsm
        · rw [if_neg hfit] at hsm
          by_cases hcur : st.cur ≠ []
          · rw [if_pos hcur] at hsm
            simp only [HWrapState.segs, List.mem_append, List.mem_singleton] at hsm
            rcases hsm with hsm | hsm
            · exact hs s hsm
            · exact hsm ▸ hc
          · rw [if_neg hcur] at hsm
            exact hs s hsm
    · unfold hWrapStep
      by_cases hnl : c = '\n'
      · rw [if_pos hnl]
        by_cases hcur : st.cur ≠ []
        · rw [if_pos hcur]; exact fitsH_nil hm hw
        · rw [if_neg hcur]; exact fitsH_nil hm hw
      · rw [if_neg hnl]
        by_cases hfit : measuredWidth w sp (st.cur ++ [c]) ≤ (maxDim : ℚ)
        · rw [if_pos hfit]
          exact Or.inl hfit
        · rw [if_neg hfit]
          by_cases hcur : st.cur ≠ []
          · rw [if_pos hcur]; exact Or.inr rfl
          · rw [if_neg hcur]; exact Or.inr rfl

theorem vWrap_fits (cellH maxDim : ℤ) (hm : 0 < maxDim) :
    ∀ (text : List Char) (st : VWrapState),
      st.curH = (st.cur.length : ℤ) * cellH →
      (∀ s ∈ st.segs, fitsV cellH maxDim s) → fitsV cellH maxDim st.cur →
      (text.foldl (vWrapStep cellH maxDim) st).curH =
          (((text.foldl (vWrapStep cellH maxDim) st).cur.length : ℤ) * cellH) ∧
      (∀ s ∈ (text.foldl (vWrapStep cellH maxDim) st).segs, fitsV cellH maxDim s) ∧
        fitsV cellH maxDim (text.foldl (vWrapStep cellH maxDim) st).cur := by
  intro text
  induction text with
  | nil => exact fun st hh hs hc => ⟨hh, hs, hc⟩
  | cons c t ih =>
    intro st hh hs hc
    rw [List.foldl_cons]
    apply ih
    · unfold vWrapStep
      by_cases hnl : c = '\n'
      · rw [if_pos hnl]
        by_cases hcur : st.cur ≠ []
        · rw [if_pos hcur]; simp
        · rw [if_neg hcur]; simp
      · rw [if_neg hnl]
        by_cases hfit : st.cur = [] ∨ st.curH + cellH ≤ maxDim
        · rw [if_pos hfit]
          simp only [VWrapState.curH, VWrapState.cur, List.length_append,
            List.length_singleton]
          push_cast
          rw [hh]; ring
        · rw [if_neg hfit]
          simp
    · intro s hsm
      unfold vWrapStep at hsm
      by_cases hnl : c = '\n'
      · rw [if_pos hnl] at hsm
        by_cases hcur : st.cur ≠ []
        · rw [if_pos hcur] at hsm
          simp only [VWrapState.segs, List.mem_append, List.mem_cons,
            List.mem_singleton, List.not_mem_nil, or_false] at hsm
          rcases hsm with hsm | hsm | hsm
          · exact hs s hsm
          · exact hsm ▸ hc
          · exact hsm ▸ fitsV_nil hm
        · rw [if_neg hcur] at hsm
          simp only [VWrapState.segs, List.mem_append, List.mem_singleton] at hsm
          rcases hsm with hsm | hsm
          · exact hs s hsm
          · exact hsm ▸ fitsV_nil hm
      · rw [if_neg hnl] at hsm
        by_cases hfit : st.cur = [] ∨ st.curH + cellH ≤ maxDim
        · rw [if_pos hfit] at hsm
          exact hs s hsm
        · rw [if_neg hfit] at hsm
          simp only [VWrapState.segs, List.mem_append, List.mem_singleton] at hsm
          rcases hsm with hsm | hsm
          · exact hs s hsm
          · exact hsm ▸ hc
    · unfold vWrapStep
      by_cases hnl : c = '\n'
      · rw [if_pos hnl]
        by_cases hcur : st.cur ≠ []
        · rw [if_pos hcur]; exact fitsV_nil hm
        · rw [if_neg hcur]; exact fitsV_nil hm
      · rw [if_neg hnl]
        by_cases hfit : st.cur = [] ∨ st.curH + cellH ≤ maxDim
        · rw [if_pos hfit]
          rcases hfit with hfit | hfit
        
          · right
            simp [VWrapState.cur, hfit]
          · left
            simp only [VWrapState.cur, List.length_append, List.length_singleton]
            push_cast
            have h2 : (st.cur.length : ℤ) * cellH + cellH ≤ maxDim := by
              rw [← hh]; exact hfit
            linarith
        · rw [if_neg hfit]
          exact Or.inr rfl

theorem hWrapStep_progress (w : List Char → ℚ) (sp maxDim : ℤ)
    (st : HWrapState) (c : Char) :
    (hWrapStep w sp maxDim st c).segs ≠ [] ∨ (hWrapStep w sp maxDim st c).cur ≠ [] := by
  unfold hWrapStep
  by_cases hnl : c = '\n'
  · rw [if_pos hnl]
    by_cases hcur : st.cur ≠ []
    · rw [if_pos hcur]; left; simp
    · rw [if_neg hcur]; left; simp
  · rw [if_neg hnl]
    by_cases hfit : measuredWidth w sp (st.cur ++ [c]) ≤ (maxDim : ℚ)
    · rw [if_pos hfit]; right; simp
    · rw [if_neg hfit]
      by_cases hcur : st.cur ≠ []
      · rw [if_pos hcur]; right; simp
      · rw [if_neg hcur]; right; simp

theorem vWrapStep_progress (cellH maxDim : ℤ) (st : VWrapState) (c : Char) :
    (vWrapStep cellH maxDim st c).segs ≠ [] ∨ (vWrapStep cellH maxDim st c).cur ≠ [] := by
  unfold vWrapStep
  by_cases hnl : c = '\n'
  · rw [if_pos hnl]
    by_cases hcur : st.cur ≠ []
    · rw [if_pos hcur]; left; simp
    · rw [if_neg hcur]; left; simp
  · rw [if_neg hnl]
    by_cases hfit : st.cur = [] ∨ st.curH + cellH ≤ maxDim
    · rw [if_pos hfit]; right; simp
    · rw [if_neg hfit]; right; simp

theorem hWrapRun_progress (w : List Char → ℚ) (sp maxDim : ℤ) :
    ∀ (text : List Char) (st : HWrapState), text ≠ [] →
      (text.foldl (hWrapStep w sp maxDim) st).segs ≠ [] ∨
        (text.foldl (hWrapStep w sp maxDim) st).cur ≠ [] := by
  intro text
  induction text with
  | nil => intro st h; exact absurd rfl h
  | cons c t ih =>
    intro st _
    rw [List.foldl_cons]
    by_cases ht : t = []
    · subst ht
      exact hWrapStep_progress w sp maxDim st c
    · exact ih (hWrapStep w sp maxDim st c) ht

theorem vWrapRun_progress (cellH maxDim : ℤ) :
    ∀ (text : List Char) (st : VWrapState), text ≠ [] →
      (text.foldl (vWrapStep cellH maxDim) st).segs ≠ [] ∨
        (text.foldl (vWrapStep cellH maxDim) st).cur ≠ [] := by
  intro text
  induction text with
  | nil => intro st h; exact absurd rfl h
  | cons c t ih =>
    intro st _
    rw [List.foldl_cons]
    by_cases ht : t = []
    · subst ht
      exact vWrapStep_progress cellH maxDim st c
    · exact ih (vWrapStep cellH maxDim st c) ht

theorem hFinSegs_ne (w : List Char → ℚ) (sp maxDim : ℤ) (text : List Char)
    (ht : text ≠ []) : hFinSegs (hWrapRun w sp maxDim text) ≠ [] := by
  unfold hFinSegs
  by_cases hcur : (hWrapRun w sp maxDim text).cur ≠ []
  · rw [if_pos hcur]; simp
  · rw [if_neg hcur]
    rcases hWrapRun_progress w sp maxDim text ⟨[], [], 0⟩ ht with h | h
    · exact h
    · exact absurd h hcur

theorem vFinSegs_ne (cellH maxDim : ℤ) (text : List Char) (ht : text ≠ []) :
    vFinSegs (vWrapRun cellH maxDim text) ≠ [] := by
  unfold vFinSegs
  by_cases hcur : (vWrapRun cellH maxDim text).cur ≠ []
  · rw [if_pos hcur]; simp
  · rw [if_neg hcur]
    rcases vWrapRun_progress cellH maxDim text ⟨[], [], 0, 0⟩ ht with h | h
    · exact h
    · exact absurd h hcur

/-- Members of the flushed segment list are the loop's segments plus possibly
the final current line. -/
theorem mem_hFinSegs {st : HWrapState} {s : List Char}
    (h : s ∈ hFinSegs st) : s ∈ st.segs ∨ s = st.cur := by
  unfold hFinSegs at h
  by_cases hcur : st.cur ≠ []
  · rw [if_pos hcur] at h
    simpa using h
  · rw [if_neg hcur] at h
    exact Or.inl h

theorem mem_vFinSegs {st : VWrapState} {s : List Char}
    (h : s ∈ vFinSegs st) : s ∈ st.segs ∨ s = st.cur := by
  unfold vFinSegs at h
  by_cases hcur : st.cur ≠ []
  · rw [if_pos hcur] at h
    simpa using h
  · rw [if_neg hcur] at h
    exact Or.inl h

/-- C2: every wrapped segment fits within `maxDim` — the measured width
(`textlength` plus `charSpacing×(chars−1)` when the spacing is nonzero) for
horizontal orientation, the character count times the per-character cell
height for vertical orientation — except that a segment consisting of exactly
one character may exceed it and is still emitted. -/
theorem wrap_segments_fit (w : List Char → ℚ) (baseLineH : ℤ) (colW : ℚ)
    (fontSize : ℤ) (text : List Char) (maxDim charSp lineColSp : ℤ)
    (hm : 0 < maxDim) (hw : w [] = 0) :
    (∀ s ∈ (wrapTextPil true w baseLineH colW fontSize text maxDim
        WrapDir.horizontal charSp lineColSp).segments,
      measuredWidth w charSp s ≤ (maxDim : ℚ) ∨ s.length = 1) ∧
    (∀ s ∈ (wrapTextPil true w baseLineH colW fontSize text maxDim
        WrapDir.vertical charSp lineColSp).segments,
      (s.length : ℤ) * (baseLineH + charSp) ≤ maxDim ∨ s.length = 1) := by
  by_cases ht : text = []
  · subst ht
    constructor <;> · intro s hs; simp [wrapTextPil] at hs
  · have hng : ¬ (text = [] ∨ maxDim ≤ 0 ∨ ¬ (true : Bool) = true) := by
      push_neg
      exact ⟨ht, hm, by simp⟩
    constructor
    · intro s hs
      have hseg : (wrapTextPil true w baseLineH colW fontSize text maxDim
          WrapDir.horizontal charSp lineColSp).segments =
          (hWrapFinish w charSp (hWrapRun w charSp maxDim text) text).1 := by
        unfold wrapTextPil
        rw [if_neg hng]
      rw [hseg] at hs
      unfold hWrapFinish at hs
      rw [if_neg (by simp [hFinSegs_ne w charSp maxDim text ht])] at hs
      have hinv := hWrap_fits w charSp maxDim hm hw text ⟨[], [], 0⟩
        (by intro s hsm; simp at hsm) (fitsH_nil hm hw)
      rcases mem_hFinSegs hs with hmem | hmem
      · exact hinv.1 s hmem
      · exact hmem ▸ hinv.2
    · intro s hs
      have hcell : getFontLineHeight true baseLineH
          (if (true : Bool) = true then fontSize else 16) charSp =
            baseLineH + charSp := by
        simp [getFontLineHeight]
      have hseg : (wrapTextPil true w baseLineH colW fontSize text maxDim
          WrapDir.vertical charSp lineColSp).segments =
          (vWrapFinish (baseLineH + charSp)
            (vWrapRun (baseLineH + charSp) maxDim text) text).1 := by
        unfold wrapTextPil
        rw [if_neg hng]
        show (vWrapFinish (getFontLineHeight true baseLineH
            (if (true : Bool) = true then fontSize else 16) charSp)
          (vWrapRun (getFontLineHeight true baseLineH
            (if (true : Bool) = true then fontSize else 16) charSp)
              maxDim text) text).1 = _
        rw [hcell]
      rw [hseg] at hs
      unfold vWrapFinish at hs
      rw [if_neg (by simp [vFinSegs_ne (baseLineH + charSp) maxDim text ht])] at hs
      have hinv := vWrap_fits (baseLineH + charSp) maxDim hm text ⟨[], [], 0, 0⟩
        (by simp) (by intro s hsm; simp at hsm) (fitsV_nil hm)
      rcases mem_vFinSegs hs with hmem | hmem
      · exact hinv.2.1 s hmem
      · exact hmem ▸ hinv.2.2

/-- C2 witness: characters of width 15 against a width budget of 20 — the
two-character text cannot share a line, and each emitted segment is a single
character wider than the budget; vertically two 24-pixel cells fit a
30-pixel budget only one at a time. -/
theorem wrap_segments_fit_witness :
    ((0 : ℤ) < 20 ∧ (fun l : List Char => 15 * (l.length : ℚ)) [] = 0) ∧
    (∀ s ∈ (wrapTextPil true (fun l : List Char => 15 * (l.length : ℚ)) 24 15 20
        ['A','B'] 20 WrapDir.horizontal 0 0).segments,
      measuredWidth (fun l : List Char => 15 * (l.length : ℚ)) 0 s ≤ (20 : ℚ) ∨
        s.length = 1) := by
  refine ⟨⟨by decide, by norm_num⟩, ?_⟩
  exact (wrap_segments_fit (fun l : List Char => 15 * (l.length : ℚ)) 24 15 20
    ['A','B'] 20 0 0 (by decide) (by norm_num)).1

/-! ### Block raster renderer early paths
(`_render_single_block_pil_for_preview`, utils.py lines 372-453). -/

/-- Outcome of `_render_single_block_pil_for_preview` up to the point where
actual glyph rasterization starts.  The drawing tail of the function
(lines 455-708) only composes pixels onto the already-allocated surface and
is abstracted as `proceeds`. -/
inductive RenderOutcome where
  /-- `return None` (blank text and no usable bbox, lines 393-405). -/
  | noSurface
  /-- Blank text but a valid bbox: transparent bbox-sized surface, with the
  background fill when the background alpha is positive (lines 395-404). -/
  | emptySurface (width height : ℤ) (bgFilled : Bool)
  /-- The placeholder draw call raises `NameError` and the exception escapes
  the function: the module imports PIL's font module only under the name
  `PILImageFont` (utils.py line 11), so the bare name `ImageFont` used on the
  font-failure path (line 416) and on the degenerate-bbox path (line 439) is
  unbound, and neither path sits inside a try/except.  The freshly allocated
  red placeholder image is discarded, never returned. -/
  | raisesNameError
  /-- Content area collapsed by padding: bbox-sized surface carrying only the
  background fill, no text (lines 446-453). -/
  | bgOnlySurface (width height : ℤ) (bgFilled : Bool)
  /-- All early checks passed; the function continues to wrap and draw. -/
  | proceeds
deriving DecidableEq, Repr

/-- Embedding of the early-exit logic of
`_render_single_block_pil_for_preview` (utils.py lines 393-453): blank text
handling, then the font-fallback path (lines 410-417) and the degenerate-bbox
path (lines 435-440) — each of which allocates a red placeholder but then
evaluates `font=ImageFont.load_default()` on the unbound name `ImageFont`
(only `PILImageFont` is imported, line 11) and raises `NameError` — and the
padding-collapse background-only surface (lines 446-453). -/
def renderSingleBlockPreview (fontOk : Bool) (translated : List Char)
    (bbox : Box) (textPadding : ℤ) (bgAlpha : ℤ) : RenderOutcome :=
  if pyStrip translated = [] then
    if pyInt (bbox.x1 - bbox.x0) > 0 ∧ pyInt (bbox.y1 - bbox.y0) > 0 then
      .emptySurface (pyInt (bbox.x1 - bbox.x0)) (pyInt (bbox.y1 - bbox.y0))
        (bgAlpha > 0)
    else .noSurface
  else if ¬ fontOk then
    .raisesNameError
  else if pyInt (bbox.x1 - bbox.x0) ≤ 0 ∨ pyInt (bbox.y1 - bbox.y0) ≤ 0 then
    .raisesNameError
  else if pyInt (bbox.x1 - bbox.x0) - 2 * textPadding ≤ 0 ∨
      pyInt (bbox.y1 - bbox.y0) - 2 * textPadding ≤ 0 then
    .bgOnlySurface (pyInt (bbox.x1 - bbox.x0)) (pyInt (bbox.y1 - bbox.y0))
      (bgAlpha > 0)
  else .proceeds

/-- C8: the degenerate-bbox prong of the claim is a code bug — with non-blank
text and a loadable font, a non-positive bbox does NOT yield the
visibly-marked placeholder: the path raises `NameError` (the bare name
`ImageFont` at utils.py line 439 is unbound; PIL's font module is imported
only as `PILImageFont`, line 11) and the exception propagates past the render
boundary, so the call returns no surface at all.  The padding-collapse prong
does hold: a content area collapsed to `≤ 0` by padding returns the
bbox-sized background-only surface without raising. -/
theorem render_bbox_error_raises (fontOk : Bool) (translated : List Char)
    (bbox : Box) (textPadding : ℤ) (bgAlpha : ℤ)
    (ht : pyStrip translated ≠ []) (hf : fontOk = true) :
    ((pyInt (bbox.x1 - bbox.x0) ≤ 0 ∨ pyInt (bbox.y1 - bbox.y0) ≤ 0) →
      renderSingleBlockPreview fontOk translated bbox textPadding bgAlpha =
        .raisesNameError) ∧
    (0 < pyInt (bbox.x1 - bbox.x0) → 0 < pyInt (bbox.y1 - bbox.y0) →
      (pyInt (bbox.x1 - bbox.x0) - 2 * textPadding ≤ 0 ∨
        pyInt (bbox.y1 - bbox.y0) - 2 * textPadding ≤ 0) →
      renderSingleBlockPreview fontOk translated bbox textPadding bgAlpha =
        .bgOnlySurface (pyInt (bbox.x1 - bbox.x0)) (pyInt (bbox.y1 - bbox.y0))
          (bgAlpha > 0)) := by
  subst hf
  constructor
  · intro hdeg
    unfold renderSingleBlockPreview
    rw [if_neg ht, if_neg (by simp), if_pos hdeg]
  · intro hw hh hcol
    unfold renderSingleBlockPreview
    rw [if_neg ht, if_neg (by simp), if_neg (by push_neg; exact ⟨hw, hh⟩),
      if_pos hcol]

/-- C8 witness: a box collapsed to zero width ends in the raised `NameError`,
and a `10×10` box with padding `6` ends in the background-only surface. -/
theorem render_bbox_error_raises_witness :
    ((pyStrip ['h','i'] ≠ [] ∧
        (pyInt ((5:ℚ) - 5) ≤ 0 ∨ pyInt ((8:ℚ) - 0) ≤ 0)) ∧
      renderSingleBlockPreview true ['h','i'] ⟨5,0,5,8⟩ 3 128 =
        .raisesNameError) ∧
    ((0 < pyInt ((10:ℚ) - 0) ∧ 0 < pyInt ((10:ℚ) - 0) ∧
        (pyInt ((10:ℚ) - 0) - 2 * 6 ≤ 0 ∨ pyInt ((10:ℚ) - 0) - 2 * 6 ≤ 0)) ∧
      renderSingleBlockPreview true ['h','i'] ⟨0,0,10,10⟩ 6 128 =
        .bgOnlySurface (pyInt ((10:ℚ) - 0)) (pyInt ((10:ℚ) - 0)) (128 > 0)) :=
  ⟨⟨⟨by decide, Or.inl (by decide)⟩,
    (render_bbox_error_raises true ['h','i'] ⟨5,0,5,8⟩ 3 128 (by decide)
      rfl).1 (Or.inl (by decide))⟩,
   ⟨⟨by decide, by decide, Or.inl (by decide)⟩,
    (render_bbox_error_raises true ['h','i'] ⟨0,0,10,10⟩ 6 128 (by decide)
      rfl).2 (by decide) (by decide) (Or.inl (by decide))⟩⟩

/-! ### Auto-fit bbox adjustment
(`_adjust_block_bbox_for_text_fit`, image_processor.py lines 124-197). -/

/-- Configuration snapshot read by `_adjust_block_bbox_for_text_fit`
(image_processor.py lines 125-133). -/
structure AdjustCfg where
  enabled : Bool
  textPadding : ℤ
  hCharSp : ℤ
  hLineSp : ℤ
  vCharSp : ℤ
  vColSp : ℤ
deriving DecidableEq, Repr

/-- The wrap budget `int(content) if content > 0 else 1`
(image_processor.py lines 161, 171). -/
def wrapBudget (q : ℚ) : ℤ := if q > 0 then pyInt q else 1

/-- The `(needed_content_width_unpadded, needed_content_height_unpadded)`
pair computed from the wrap result (image_processor.py lines 156-177). -/
def adjustNeeded (cfg : AdjustCfg) (fontOk : Bool) (w : List Char → ℚ)
    (baseLineH : ℤ) (colW : ℚ) (fontSize : ℤ) (dir : WrapDir)
    (text : List Char) (bbox : Box) : ℤ × ℤ :=
  match dir with
  | .horizontal =>
    ((wrapTextPil fontOk w baseLineH colW fontSize text
        (wrapBudget ((bbox.x1 - bbox.x0) - 2 * cfg.textPadding))
        WrapDir.horizontal cfg.hCharSp cfg.hLineSp).maxAchieved,
     (wrapTextPil fontOk w baseLineH colW fontSize text
        (wrapBudget ((bbox.x1 - bbox.x0) - 2 * cfg.textPadding))
        WrapDir.horizontal cfg.hCharSp cfg.hLineSp).totalPrimary)
  | .vertical =>
    ((wrapTextPil fontOk w baseLineH colW fontSize text
        (wrapBudget ((bbox.y1 - bbox.y0) - 2 * cfg.textPadding))
        WrapDir.vertical cfg.vCharSp cfg.vColSp).totalPrimary,
     (wrapTextPil fontOk w baseLineH colW fontSize text
        (wrapBudget ((bbox.y1 - bbox.y0) - 2 * cfg.textPadding))
        WrapDir.vertical cfg.vCharSp cfg.vColSp).maxAchieved)

/-- A bbox grown symmetrically about its center to the final width and
height (image_processor.py lines 185-197). -/
def expandedBox (bbox : Box) (fw fh : ℚ) : Box :=
  ⟨(bbox.x0 + bbox.x1) / 2 - fw / 2, (bbox.y0 + bbox.y1) / 2 - fh / 2,
   (bbox.x0 + bbox.x1) / 2 + fw / 2, (bbox.y0 + bbox.y1) / 2 + fh / 2⟩

/-- Embedding of `_adjust_block_bbox_for_text_fit` (image_processor.py lines
124-197), acting on the block's bbox.  Early returns: feature disabled, blank
text or unloadable font, non-positive bbox, content area consumed by padding,
and the defensive zero-size wrap result; otherwise the bbox grows to the
larger of current and required size on each axis, clamped to a 10px minimum,
symmetrically about its center. -/
def adjustBbox (cfg : AdjustCfg) (fontOk : Bool) (w : List Char → ℚ)
    (baseLineH : ℤ) (colW : ℚ) (fontSize : ℤ) (dir : WrapDir)
    (text : List Char) (bbox : Box) : Box :=
  if ¬ cfg.enabled then bbox
  else if pyStrip text = [] ∨ ¬ fontOk then bbox
  else if bbox.x1 - bbox.x0 ≤ 0 ∨ bbox.y1 - bbox.y0 ≤ 0 then bbox
  else if (bbox.x1 - bbox.x0) - 2 * cfg.textPadding ≤ 0 ∨
      (bbox.y1 - bbox.y0) - 2 * cfg.textPadding ≤ 0 then bbox
  else if (adjustNeeded cfg fontOk w baseLineH colW fontSize dir text bbox).1 ≤ 0 ∧
      (adjustNeeded cfg fontOk w baseLineH colW fontSize dir text bbox).2 ≤ 0 ∧
      text ≠ [] then bbox
  else if (((adjustNeeded cfg fontOk w baseLineH colW fontSize dir text bbox).1
        + 2 * cfg.textPadding : ℤ) : ℚ) > bbox.x1 - bbox.x0 ∨
      (((adjustNeeded cfg fontOk w baseLineH colW fontSize dir text bbox).2
        + 2 * cfg.textPadding : ℤ) : ℚ) > bbox.y1 - bbox.y0 then
    expandedBox bbox
      (max (max (bbox.x1 - bbox.x0)
        (((adjustNeeded cfg fontOk w baseLineH colW fontSize dir text bbox).1
          + 2 * cfg.textPadding : ℤ) : ℚ)) 10)
      (max (max (bbox.y1 - bbox.y0)
        (((adjustNeeded cfg fontOk w baseLineH colW fontSize dir text bbox).2
          + 2 * cfg.textPadding : ℤ) : ℚ)) 10)
  else bbox

/-- C3 counterexample: with padding 0, character spacing 100, per-character
width 1, line height 24 and bbox `[0, 0, 0.5, 30]`, the first auto-fit pass
runs the wrapper's degenerate `max_dim = int(0.5) = 0` path, which measures
the whole text as one unwrapped line (needed size `3 × 24`), and grows the
box to width 10; the second pass re-wraps inside the grown box at budget 10,
now needs three lines (height 72 > 30), and grows the box again — the two
results differ, so the adjustment is not idempotent. -/
theorem autofit_not_idempotent :
    adjustBbox ⟨true, 0, 100, 0, 0, 0⟩ true (fun l => (l.length : ℚ)) 24 1 16
        WrapDir.horizontal ['a','b','c']
        (adjustBbox ⟨true, 0, 100, 0, 0, 0⟩ true (fun l => (l.length : ℚ)) 24 1 16
          WrapDir.horizontal ['a','b','c'] ⟨0, 0, 1/2, 30⟩) ≠
      adjustBbox ⟨true, 0, 100, 0, 0, 0⟩ true (fun l => (l.length : ℚ)) 24 1 16
        WrapDir.horizontal ['a','b','c'] ⟨0, 0, 1/2, 30⟩ := by decide

/-! ### Helper lemmas for the auto-fit idempotence proof -/

theorem pyInt_mono : Monotone pyInt := by
  intro a b hab
  unfold pyInt
  by_cases ha : 0 ≤ a
  · rw [if_pos ha, if_pos (le_trans ha hab)]
    exact Int.floor_le_floor hab
  · rw [if_neg ha]
    by_cases hb : 0 ≤ b
    · rw [if_pos hb]
      calc ⌈a⌉ ≤ 0 := Int.ceil_le.mpr (by push_cast; exact le_of_lt (not_le.mp ha))
        _ ≤ ⌊b⌋ := Int.le_floor.mpr (by exact_mod_cast hb)
    · rw [if_neg hb]
      exact Int.ceil_le_ceil hab

theorem pyInt_le_self {q : ℚ} (h : 0 ≤ q) : (pyInt q : ℚ) ≤ q := by
  unfold pyInt
  rw [if_pos h]
  exact Int.floor_le q

theorem pyInt_intCast (n : ℤ) : pyInt (n : ℚ) = n := by
  unfold pyInt
  by_cases h : (0 : ℚ) ≤ (n : ℚ)
  · rw [if_pos h, Int.floor_intCast]
  · rw [if_neg h, Int.ceil_intCast]

theorem one_le_of_one_le_pyInt {q : ℚ} (h : 1 ≤ pyInt q) : 1 ≤ q := by
  unfold pyInt at h
  by_cases hq : 0 ≤ q
  · rw [if_pos hq] at h
    exact le_trans (by exact_mod_cast h) (Int.floor_le q)
  · rw [if_neg hq] at h
    have : ⌈q⌉ ≤ 0 := Int.ceil_le.mpr (by push_cast; exact le_of_lt (not_le.mp hq))
    omega

theorem w_nil_eq_zero {w : List Char → ℚ}
    (hadd : ∀ a b, w (a ++ b) = w a + w b) : w [] = 0 := by
  have := hadd [] []
  simp at this
  linarith

theorem w_nonneg {w : List Char → ℚ}
    (hadd : ∀ a b, w (a ++ b) = w a + w b) (hpos : ∀ c, 0 ≤ w [c]) :
    ∀ l, 0 ≤ w l := by
  intro l
  induction l with
  | nil => rw [w_nil_eq_zero hadd]
  | cons c t ih =>
    have := hadd [c] t
    simp only [List.singleton_append] at this
    rw [this]
    exact add_nonneg (hpos c) ih

theorem measuredWidth_single (w : List Char → ℚ) (sp : ℤ) (c : Char) :
    measuredWidth w sp [c] = w [c] := by
  unfold measuredWidth
  simp

theorem measuredWidth_suffix_mono {w : List Char → ℚ} {sp : ℤ}
    (hadd : ∀ a b, w (a ++ b) = w a + w b) (hpos : ∀ c, 0 ≤ w [c])
    (hsp : 0 ≤ sp) {s t : List Char} (h : s <:+ t) :
    measuredWidth w sp s ≤ measuredWidth w sp t := by
  obtain ⟨pre, hpre⟩ := h
  subst hpre
  unfold measuredWidth
  have hws : w s ≤ w (pre ++ s) := by
    rw [hadd]
    have := w_nonneg hadd hpos pre
    linarith
  have hlen : s.length ≤ (pre ++ s).length := by simp
  by_cases h1 : s.length > 1 ∧ sp ≠ 0
  · rw [if_pos h1, if_pos ⟨by omega, h1.2⟩]
    have : ((s.length : ℚ) - 1) * sp ≤ (((pre ++ s).length : ℚ) - 1) * sp := by
      apply mul_le_mul_of_nonneg_right _ (by exact_mod_cast hsp)
      have : (s.length : ℚ) ≤ ((pre ++ s).length : ℚ) := by exact_mod_cast hlen
      linarith
    nlinarith [this]
  · rw [if_neg h1]
    by_cases h2 : (pre ++ s).length > 1 ∧ sp ≠ 0
    · rw [if_pos h2]
      have hsp' : (0 : ℚ) ≤ (sp : ℚ) := by exact_mod_cast hsp
      have hl2 : (1 : ℚ) ≤ ((pre ++ s).length : ℚ) := by
        have : 1 ≤ (pre ++ s).length := by omega
        exact_mod_cast this
      nlinarith
    · rw [if_neg h2]
      linarith

theorem measuredWidth_mem_le {w : List Char → ℚ} {sp : ℤ}
    (hadd : ∀ a b, w (a ++ b) = w a + w b) (hpos : ∀ c, 0 ≤ w [c])
    (hsp : 0 ≤ sp) {c : Char} {s : List Char} (h : c ∈ s) :
    w [c] ≤ measuredWidth w sp s := by
  obtain ⟨l, r, hlr⟩ := List.append_of_mem h
  subst hlr
  calc w [c] ≤ measuredWidth w sp (c :: r) := by
        rw [show c :: r = [c] ++ r from rfl]
        unfold measuredWidth
        rw [hadd]
        have hr := w_nonneg hadd hpos r
        by_cases h1 : ([c] ++ r).length > 1 ∧ sp ≠ 0
        · rw [if_pos h1]
          have hsp' : (0 : ℚ) ≤ (sp : ℚ) := by exact_mod_cast hsp
          have : (1 : ℚ) ≤ (([c] ++ r).length : ℚ) := by
            have : 1 ≤ ([c] ++ r).length := by simp
            exact_mod_cast this
          nlinarith
        · rw [if_neg h1]
          linarith
    _ ≤ measuredWidth w sp (l ++ c :: r) :=
        measuredWidth_suffix_mono hadd hpos hsp ⟨l, rfl⟩

/-- Main-path characterization of the horizontal wrap result. -/
theorem wrap_h_main (w : List Char → ℚ) (baseLineH : ℤ) (colW : ℚ)
    (fontSize : ℤ) (text : List Char) (maxDim charSp lineColSp : ℤ)
    (ht : text ≠ []) (hm : 0 < maxDim) :
    wrapTextPil true w baseLineH colW fontSize text maxDim
        WrapDir.horizontal charSp lineColSp =
      ⟨hFinSegs (hWrapRun w charSp maxDim text),
       (hFinSegs (hWrapRun w charSp maxDim text)).length * (baseLineH + lineColSp),
       baseLineH + lineColSp,
       pyInt (hFinMaxw w charSp (hWrapRun w charSp maxDim text))⟩ := by
  have hng : ¬ (text = [] ∨ maxDim ≤ 0 ∨ ¬ (true : Bool) = true) := by
    push_neg
    exact ⟨ht, hm, by simp⟩
  unfold wrapTextPil
  rw [if_neg hng]
  have hfin : hWrapFinish w charSp (hWrapRun w charSp maxDim text) text =
      (hFinSegs (hWrapRun w charSp maxDim text),
       hFinMaxw w charSp (hWrapRun w charSp maxDim text)) := by
    unfold hWrapFinish
    rw [if_neg (by simp [hFinSegs_ne w charSp maxDim text ht])]
  show (⟨(hWrapFinish w charSp (hWrapRun w charSp maxDim text) text).1, _, _, _⟩ :
    WrapResult) = _
  rw [hfin]
  have hlh : getFontLineHeight true baseLineH
      (if (true : Bool) = true then fontSize else 16) lineColSp =
        baseLineH + lineColSp := by
    simp [getFontLineHeight]
  simp only [hlh, ht, if_neg, ite_false, reduceIte,
    hFinSegs_ne w charSp maxDim text ht, ne_eq, not_false_eq_true, ite_true]
  rfl

/-- Main-path characterization of the vertical wrap result. -/
theorem wrap_v_main (w : List Char → ℚ) (baseLineH : ℤ) (colW : ℚ)
    (fontSize : ℤ) (text : List Char) (maxDim charSp lineColSp : ℤ)
    (ht : text ≠ []) (hm : 0 < maxDim) :
    wrapTextPil true w baseLineH colW fontSize text maxDim
        WrapDir.vertical charSp lineColSp =
      ⟨vFinSegs (vWrapRun (baseLineH + charSp) maxDim text),
       pyInt (((vFinSegs (vWrapRun (baseLineH + charSp) maxDim text)).length : ℚ) *
           colWidthMetric colW fontSize fontSize +
         (if ((vFinSegs (vWrapRun (baseLineH + charSp) maxDim text)).length : ℤ) > 1 then
           (((vFinSegs (vWrapRun (baseLineH + charSp) maxDim text)).length : ℚ) - 1) *
             (lineColSp : ℚ)
          else 0)),
       baseLineH + charSp,
       vFinMaxh (vWrapRun (baseLineH + charSp) maxDim text)⟩ := by
  have hng : ¬ (text = [] ∨ maxDim ≤ 0 ∨ ¬ (true : Bool) = true) := by
    push_neg
    exact ⟨ht, hm, by simp⟩
  unfold wrapTextPil
  rw [if_neg hng]
  have hch : getFontLineHeight true baseLineH
      (if (true : Bool) = true then fontSize else 16) charSp =
        baseLineH + charSp := by
    simp [getFontLineHeight]
  have hcolw : colWidthMetric colW fontSize
      (if (true : Bool) = true then fontSize else 16) =
        colWidthMetric colW fontSize fontSize := by
    simp
  have hfin : vWrapFinish (baseLineH + charSp)
      (vWrapRun (baseLineH + charSp) maxDim text) text =
      (vFinSegs (vWrapRun (baseLineH + charSp) maxDim text),
       vFinMaxh (vWrapRun (baseLineH + charSp) maxDim text)) := by
    unfold vWrapFinish
    rw [if_neg (by simp [vFinSegs_ne (baseLineH + charSp) maxDim text ht])]
  show (⟨(vWrapFinish (getFontLineHeight true baseLineH
      (if (true : Bool) = true then fontSize else 16) charSp)
        (vWrapRun (getFontLineHeight true baseLineH
          (if (true : Bool) = true then fontSize else 16) charSp) maxDim text)
        text).1, _, _, _⟩ : WrapResult) = _
  rw [hch, hcolw, hfin]
  simp only [ht, ite_false, reduceIte,
    vFinSegs_ne (baseLineH + charSp) maxDim text ht, ne_eq, not_false_eq_true,
    ite_true]
  rfl

theorem hWrap_maxw_inv (w : List Char → ℚ) (sp maxDim : ℤ) :
    ∀ (text : List Char) (st : HWrapState),
      (∀ s ∈ st.segs, s ≠ [] → measuredWidth w sp s ≤ st.maxw) →
      st.maxw ≤ (text.foldl (hWrapStep w sp maxDim) st).maxw ∧
      (∀ s ∈ (text.foldl (hWrapStep w sp maxDim) st).segs, s ≠ [] →
        measuredWidth w sp s ≤ (text.foldl (hWrapStep w sp maxDim) st).maxw) := by
  intro text
  induction text with
  | nil => exact fun st hs => ⟨le_refl _, hs⟩
  | cons c t ih =>
    intro st hs
    rw [List.foldl_cons]
    have hstep : st.maxw ≤ (hWrapStep w sp maxDim st c).maxw ∧
        (∀ s ∈ (hWrapStep w sp maxDim st c).segs, s ≠ [] →
          measuredWidth w sp s ≤ (hWrapStep w sp maxDim st c).maxw) := by
      unfold hWrapStep
      by_cases hnl : c = '\n'
      · rw [if_pos hnl]
        by_cases hcur : st.cur ≠ []
        · rw [if_pos hcur]
          refine ⟨le_max_left _ _, ?_⟩
          intro s hsm hne
          simp only [HWrapState.segs, HWrapState.maxw, List.mem_append,
            List.mem_cons, List.mem_singleton, List.not_mem_nil, or_false] at hsm ⊢
          rcases hsm with hsm | hsm | hsm
          · exact le_trans (hs s hsm hne) (le_max_left _ _)
          · exact hsm ▸ le_max_right _ _
          · exact absurd hsm hne
        · rw [if_neg hcur]
          exact ⟨le_refl _, by
            intro s hsm hne
            simp only [HWrapState.segs, List.mem_append, List.mem_singleton] at hsm
            rcases hsm with hsm | hsm
            · exact hs s hsm hne
            · exact absurd hsm hne⟩
      · rw [if_neg hnl]
        by_cases hfit : measuredWidth w sp (st.cur ++ [c]) ≤ (maxDim : ℚ)
        · rw [if_pos hfit]
          exact ⟨le_refl _, hs⟩
        · rw [if_neg hfit]
          by_cases hcur : st.cur ≠ []
          · rw [if_pos hcur]
            refine ⟨le_max_left _ _, ?_⟩
            intro s hsm hne
            simp only [HWrapState.segs, HWrapState.maxw, List.mem_append,
              List.mem_singleton] at hsm ⊢
            rcases hsm with hsm | hsm
            · exact le_trans (hs s hsm hne) (le_max_left _ _)
            · exact hsm ▸ le_max_right _ _
          · rw [if_neg hcur]
            exact ⟨le_refl _, hs⟩
    obtain ⟨h1, h2⟩ := ih (hWrapStep w sp maxDim st c) hstep.2
    exact ⟨le_trans hstep.1 h1, h2⟩

theorem hFinMaxw_ge_run (w : List Char → ℚ) (sp : ℤ) (st : HWrapState) :
    st.maxw ≤ hFinMaxw w sp st := by
  unfold hFinMaxw
  by_cases hcur : st.cur ≠ []
  · rw [if_pos hcur]; exact le_max_left _ _
  · rw [if_neg hcur]

theorem measured_le_hFinMaxw (w : List Char → ℚ) (sp maxDim : ℤ)
    (text : List Char) {s : List Char}
    (hmem : s ∈ hFinSegs (hWrapRun w sp maxDim text)) (hne : s ≠ []) :
    measuredWidth w sp s ≤ hFinMaxw w sp (hWrapRun w sp maxDim text) := by
  have hinv := hWrap_maxw_inv w sp maxDim text ⟨[], [], 0⟩
    (by intro s hsm; simp at hsm)
  rcases mem_hFinSegs hmem with hm | hm
  · exact le_trans (hinv.2 s hm hne) (hFinMaxw_ge_run w sp _)
  · subst hm
    unfold hFinMaxw
    rw [if_pos hne]
    exact le_max_right _ _

theorem hWrap_char_le_maxw {w : List Char → ℚ} {sp maxDim : ℤ}
    (hadd : ∀ a b, w (a ++ b) = w a + w b) (hpos : ∀ c, 0 ≤ w [c])
    (hsp : 0 ≤ sp) {text : List Char} {c : Char}
    (hc : c ∈ text) (hnl : c ≠ '\n') :
    w [c] ≤ hFinMaxw w sp (hWrapRun w sp maxDim text) := by
  have hj := hWrap_join w sp maxDim text ⟨[], [], 0⟩
  simp only [HWrapState.segs, HWrapState.cur, List.flatten_nil,
    List.nil_append] at hj
  have hcf : c ∈ (hWrapRun w sp maxDim text).segs.flatten ++
      (hWrapRun w sp maxDim text).cur := by
    show c ∈ (List.foldl (hWrapStep w sp maxDim) ⟨[], [], 0⟩ text).segs.flatten ++
      (List.foldl (hWrapStep w sp maxDim) ⟨[], [], 0⟩ text).cur
    rw [hj]
    exact List.mem_filter.mpr ⟨hc, by simpa using hnl⟩
  rcases List.mem_append.mp hcf with hm | hm
  · obtain ⟨s, hsm, hcs⟩ := List.mem_flatten.mp hm
    calc w [c] ≤ measuredWidth w sp s := measuredWidth_mem_le hadd hpos hsp hcs
      _ ≤ _ := by
        apply measured_le_hFinMaxw w sp maxDim text _ (List.ne_nil_of_mem hcs)
        unfold hFinSegs
        by_cases hcur : (hWrapRun w sp maxDim text).cur ≠ []
        · rw [if_pos hcur]
          exact List.mem_append.mpr (Or.inl hsm)
        · rw [if_neg hcur]
          exact hsm
  · have hcur : (hWrapRun w sp maxDim text).cur ≠ [] := List.ne_nil_of_mem hm
    calc w [c] ≤ measuredWidth w sp (hWrapRun w sp maxDim text).cur :=
        measuredWidth_mem_le hadd hpos hsp hm
      _ ≤ _ := by
        unfold hFinMaxw
        rw [if_pos hcur]
        exact le_max_right _ _

theorem hWrap_maxw_upper {w : List Char → ℚ} {sp maxDim : ℤ} {M : ℚ}
    (hMb : (maxDim : ℚ) ≤ M) (hM0 : 0 ≤ M) :
    ∀ (text : List Char) (st : HWrapState),
      (∀ c ∈ text, c ≠ '\n' → w [c] ≤ M) →
      st.maxw ≤ M →
      (st.cur = [] ∨ measuredWidth w sp st.cur ≤ (maxDim : ℚ) ∨
        (∃ c, st.cur = [c] ∧ w [c] ≤ M)) →
      (text.foldl (hWrapStep w sp maxDim) st).maxw ≤ M ∧
      ((text.foldl (hWrapStep w sp maxDim) st).cur = [] ∨
        measuredWidth w sp (text.foldl (hWrapStep w sp maxDim) st).cur ≤ (maxDim : ℚ) ∨
        (∃ c, (text.foldl (hWrapStep w sp maxDim) st).cur = [c] ∧ w [c] ≤ M)) := by
  intro text
  induction text with
  | nil => exact fun st _ hm hc => ⟨hm, hc⟩
  | cons c t ih =>
    intro st hchars hm hc
    have hcm : measuredWidth w sp st.cur ≤ M ∨ st.cur = [] := by
      rcases hc with h | h | ⟨a, ha, haM⟩
      · exact Or.inr h
      · exact Or.inl (le_trans h hMb)
      · left
        rw [ha, measuredWidth_single]
        exact haM
    rw [List.foldl_cons]
    apply ih _ (fun a hat => hchars a (List.mem_cons_of_mem c hat))
    · unfold hWrapStep
      by_cases hnl : c = '\n'
      · rw [if_pos hnl]
        by_cases hcur : st.cur ≠ []
        · rw [if_pos hcur]
          rcases hcm with h | h
          · exact max_le hm h
          · exact absurd h hcur
        · rw [if_neg hcur]
          exact hm
      · rw [if_neg hnl]
        by_cases hfit : measuredWidth w sp (st.cur ++ [c]) ≤ (maxDim : ℚ)
        · rw [if_pos hfit]
          exact hm
        · rw [if_neg hfit]
          by_cases hcur : st.cur ≠ []
          · rw [if_pos hcur]
            rcases hcm with h | h
            · exact max_le hm h
            · exact absurd h hcur
          · rw [if_neg hcur]
            exact hm
    · unfold hWrapStep
      by_cases hnl : c = '\n'
      · rw [if_pos hnl]
        by_cases hcur : st.cur ≠ []
        · rw [if_pos hcur]; exact Or.inl rfl
        · rw [if_neg hcur]; exact Or.inl rfl
      · have hcM : w [c] ≤ M := hchars c (List.mem_cons_self c t) hnl
        rw [if_neg hnl]
        by_cases hfit : measuredWidth w sp (st.cur ++ [c]) ≤ (maxDim : ℚ)
        · rw [if_pos hfit]
          exact Or.inr (Or.inl hfit)
        · rw [if_neg hfit]
          by_cases hcur : st.cur ≠ []
          · rw [if_pos hcur]
            exact Or.inr (Or.inr ⟨c, rfl, hcM⟩)
          · rw [if_neg hcur]
            exact Or.inr (Or.inr ⟨c, rfl, hcM⟩)

theorem hFinMaxw_le {w : List Char → ℚ} {sp maxDim : ℤ} {M : ℚ}
    (hMb : (maxDim : ℚ) ≤ M) (hM0 : 0 ≤ M) (text : List Char)
    (hchars : ∀ c ∈ text, c ≠ '\n' → w [c] ≤ M) :
    hFinMaxw w sp (hWrapRun w sp maxDim text) ≤ M := by
  obtain ⟨h1, h2⟩ := @hWrap_maxw_upper w sp maxDim M hMb hM0 text ⟨[], [], 0⟩ hchars
    (by simpa using hM0) (Or.inl rfl)
  unfold hFinMaxw
  by_cases hcur : (hWrapRun w sp maxDim text).cur ≠ []
  · rw [if_pos hcur]
    apply max_le h1
    rcases h2 with h | h | ⟨a, ha, haM⟩
    · exact absurd h hcur
    · exact le_trans h hMb
    · rw [show (hWrapRun w sp maxDim text).cur =
        (List.foldl (hWrapStep w sp maxDim) ⟨[], [], 0⟩ text).cur from rfl, ha,
        measuredWidth_single]
      exact haM
  · rw [if_neg hcur]
    exact h1

/-- Domination between the wrapping states of two runs of the horizontal loop
over the same text with budgets `b1 ≤ b2`: the larger-budget run has emitted
strictly fewer lines, or the same number with its current line a suffix of
the other run's current line. -/
def HWrapDom (st1 st2 : HWrapState) : Prop :=
  st2.segs.length < st1.segs.length ∨
    (st2.segs.length = st1.segs.length ∧ st2.cur <:+ st1.cur)

theorem suffix_append_same {c2 c1 : List Char} (h : c2 <:+ c1) (c : Char) :
    c2 ++ [c] <:+ c1 ++ [c] := by
  obtain ⟨p, hp⟩ := h
  exact ⟨p, by rw [← hp, List.append_assoc]⟩

theorem suffix_ne_nil {c2 c1 : List Char} (h : c2 <:+ c1) (hne : c2 ≠ []) :
    c1 ≠ [] := by
  obtain ⟨p, hp⟩ := h
  intro h1
  rw [h1] at hp
  exact hne (List.append_eq_nil.mp hp).2

theorem hWrap_dom_step {w : List Char → ℚ} {sp : ℤ}
    (hadd : ∀ a b, w (a ++ b) = w a + w b) (hpos : ∀ c, 0 ≤ w [c])
    (hsp : 0 ≤ sp) {b1 b2 : ℤ} (hb : b1 ≤ b2)
    {st1 st2 : HWrapState} (hdom : HWrapDom st1 st2) (c : Char) :
    HWrapDom (hWrapStep w sp b1 st1 c) (hWrapStep w sp b2 st2 c) := by
  unfold hWrapStep
  by_cases hnl : c = '\n'
  · -- newline: both currents reset, counts grow by one or two
    rw [if_pos hnl, if_pos hnl]
    have key : ∀ (u1 u2 : HWrapState), u1.cur = [] → u2.cur = [] →
        u2.segs.length ≤ u1.segs.length → HWrapDom u1 u2 := by
      intro u1 u2 h1 h2 hle
      rcases Nat.lt_or_ge u2.segs.length u1.segs.length with h | h
      · exact Or.inl h
      · exact Or.inr ⟨Nat.le_antisymm hle h, by rw [h1, h2]⟩
    by_cases hc2 : st2.cur ≠ []
    · by_cases hc1 : st1.cur ≠ []
      · rw [if_pos hc1, if_pos hc2]
        apply key _ _ rfl rfl
        simp only [HWrapState.segs, List.length_append]
        rcases hdom with hlt | ⟨heq, _⟩ <;> simp <;> omega
      · -- equal-case impossible: suffix of the empty current line
        rw [if_neg hc1, if_pos hc2]
        apply key _ _ rfl rfl
        simp only [HWrapState.segs, List.length_append]
        rcases hdom with hlt | ⟨heq, hsuf⟩
        · simp; omega
        · exact absurd (suffix_ne_nil hsuf hc2) hc1
    · by_cases hc1 : st1.cur ≠ []
      · rw [if_pos hc1, if_neg hc2]
        apply key _ _ rfl rfl
        rcases hdom with hlt | ⟨heq, _⟩ <;> simp <;> omega
      · rw [if_neg hc1, if_neg hc2]
        apply key _ _ rfl rfl
        rcases hdom with hlt | ⟨heq, _⟩ <;> simp <;> omega
  · rw [if_neg hnl, if_neg hnl]
    by_cases hf2 : measuredWidth w sp (st2.cur ++ [c]) ≤ (b2 : ℚ)
    · rw [if_pos hf2]
      by_cases hf1 : measuredWidth w sp (st1.cur ++ [c]) ≤ (b1 : ℚ)
      · rw [if_pos hf1]
        rcases hdom with hlt | ⟨heq, hsuf⟩
        · exact Or.inl hlt
        · exact Or.inr ⟨heq, suffix_append_same hsuf c⟩
      · rw [if_neg hf1]
        by_cases hc1 : st1.cur ≠ []
        · rw [if_pos hc1]
          left
          simp only [HWrapState.segs, List.length_append, List.length_singleton]
          rcases hdom with hlt | ⟨heq, _⟩ <;> omega
        · rw [if_neg hc1]
          rcases hdom with hlt | ⟨heq, hsuf⟩
          · exact Or.inl hlt
          · rw [not_not] at hc1
            rw [hc1] at hsuf
            have hc2 : st2.cur = [] := List.suffix_nil.mp hsuf
            exact Or.inr ⟨heq, by rw [hc2]; simp⟩
    · rw [if_neg hf2]
      by_cases hc2 : st2.cur ≠ []
      · rw [if_pos hc2]
        rcases hdom with hlt | ⟨heq, hsuf⟩
        · -- strict case
          by_cases hf1 : measuredWidth w sp (st1.cur ++ [c]) ≤ (b1 : ℚ)
          · rw [if_pos hf1]
            rcases Nat.lt_or_ge (st2.segs.length + 1) st1.segs.length with h | h
            · left
              simpa using h
            · have heq2 : st2.segs.length + 1 = st1.segs.length := by omega
              right
              refine ⟨by simpa using heq2, ⟨st1.cur, rfl⟩⟩
          · rw [if_neg hf1]
            by_cases hc1 : st1.cur ≠ []
            · rw [if_pos hc1]
              left
              simp only [HWrapState.segs, List.length_append, List.length_singleton]
              omega
            · rw [if_neg hc1]
              rcases Nat.lt_or_ge (st2.segs.length + 1) st1.segs.length with h | h
              · left
                simpa using h
              · have heq2 : st2.segs.length + 1 = st1.segs.length := by omega
                right
                exact ⟨by simpa using heq2, List.suffix_rfl⟩
        · -- equal case: the large-budget overflow forces the small-budget one
          have hc1 : st1.cur ≠ [] := suffix_ne_nil hsuf hc2
          have hf1 : ¬ measuredWidth w sp (st1.cur ++ [c]) ≤ (b1 : ℚ) := by
            intro hle
            apply hf2
            calc measuredWidth w sp (st2.cur ++ [c])
                ≤ measuredWidth w sp (st1.cur ++ [c]) :=
                  measuredWidth_suffix_mono hadd hpos hsp (suffix_append_same hsuf c)
              _ ≤ (b1 : ℚ) := hle
              _ ≤ (b2 : ℚ) := by exact_mod_cast hb
          rw [if_neg hf1, if_pos hc1]
          right
          refine ⟨by simp [heq], List.suffix_rfl⟩
      · rw [if_neg hc2]
        rcases hdom with hlt | ⟨heq, hsuf⟩
        · left
          have h1 : st1.segs.length ≤ (if measuredWidth w sp (st1.cur ++ [c]) ≤ (b1 : ℚ)
              then (⟨st1.segs, st1.cur ++ [c], st1.maxw⟩ : HWrapState)
              else if st1.cur ≠ [] then
                ⟨st1.segs ++ [st1.cur], [c], max st1.maxw (measuredWidth w sp st1.cur)⟩
              else ⟨st1.segs, [c], st1.maxw⟩).segs.length := by
            by_cases hf1 : measuredWidth w sp (st1.cur ++ [c]) ≤ (b1 : ℚ)
            · rw [if_pos hf1]
            · rw [if_neg hf1]
              by_cases hc1 : st1.cur ≠ []
              · rw [if_pos hc1]; simp
              · rw [if_neg hc1]
          exact Nat.lt_of_lt_of_le hlt h1
        · rw [not_not] at hc2
          rw [hc2] at hsuf
          by_cases hf1 : measuredWidth w sp (st1.cur ++ [c]) ≤ (b1 : ℚ)
          · rw [if_pos hf1]
            exact Or.inr ⟨heq, ⟨st1.cur, rfl⟩⟩
          · rw [if_neg hf1]
            by_cases hc1 : st1.cur ≠ []
            · rw [if_pos hc1]
              left
              simp only [HWrapState.segs, List.length_append, List.length_singleton]
              omega
            · rw [if_neg hc1]
              exact Or.inr ⟨heq, List.suffix_rfl⟩

theorem hWrap_dom_run {w : List Char → ℚ} {sp : ℤ}
    (hadd : ∀ a b, w (a ++ b) = w a + w b) (hpos : ∀ c, 0 ≤ w [c])
    (hsp : 0 ≤ sp) {b1 b2 : ℤ} (hb : b1 ≤ b2) :
    ∀ (text : List Char) {st1 st2 : HWrapState}, HWrapDom st1 st2 →
      HWrapDom (text.foldl (hWrapStep w sp b1) st1)
        (text.foldl (hWrapStep w sp b2) st2) := by
  intro text
  induction text with
  | nil => exact fun h => h
  | cons c t ih =>
    intro st1 st2 hdom
    rw [List.foldl_cons, List.foldl_cons]
    exact ih (hWrap_dom_step hadd hpos hsp hb hdom c)

theorem hFinSegs_length (st : HWrapState) :
    (hFinSegs st).length =
      st.segs.length + (if st.cur ≠ [] then 1 else 0) := by
  unfold hFinSegs
  by_cases hcur : st.cur ≠ []
  · rw [if_pos hcur, if_pos hcur]; simp
  · rw [if_neg hcur, if_neg hcur]
    simp

theorem hWrap_count_mono {w : List Char → ℚ} {sp : ℤ}
    (hadd : ∀ a b, w (a ++ b) = w a + w b) (hpos : ∀ c, 0 ≤ w [c])
    (hsp : 0 ≤ sp) {b1 b2 : ℤ} (hb : b1 ≤ b2) (text : List Char) :
    (hFinSegs (hWrapRun w sp b2 text)).length ≤
      (hFinSegs (hWrapRun w sp b1 text)).length := by
  have hdom : HWrapDom (hWrapRun w sp b1 text) (hWrapRun w sp b2 text) :=
    hWrap_dom_run hadd hpos hsp hb text (Or.inr ⟨rfl, List.suffix_rfl⟩)
  rw [hFinSegs_length, hFinSegs_length]
  rcases hdom with hlt | ⟨heq, hsuf⟩
  · have : (hWrapRun w sp b2 text).segs.length + 1 ≤
        (hWrapRun w sp b1 text).segs.length := hlt
    by_cases h2 : (hWrapRun w sp b2 text).cur ≠ [] <;>
      by_cases h1 : (hWrapRun w sp b1 text).cur ≠ [] <;>
      simp [h1, h2] <;> omega
  · by_cases h2 : (hWrapRun w sp b2 text).cur ≠ []
    · have h1 : (hWrapRun w sp b1 text).cur ≠ [] := suffix_ne_nil hsuf h2
      simp [h1, h2]
      omega
    · by_cases h1 : (hWrapRun w sp b1 text).cur ≠ [] <;> simp [h1, h2] <;> omega

/-- Domination between vertical wrapping states of two runs with budgets
`b1 ≤ b2`, carrying the running-height invariant. -/
def VWrapDom (cellH : ℤ) (st1 st2 : VWrapState) : Prop :=
  st1.curH = (st1.cur.length : ℤ) * cellH ∧
  st2.curH = (st2.cur.length : ℤ) * cellH ∧
  (st2.segs.length < st1.segs.length ∨
    (st2.segs.length = st1.segs.length ∧ st2.cur.length ≤ st1.cur.length))

theorem vWrap_dom_step {cellH : ℤ} (hcell : 0 < cellH) {b1 b2 : ℤ}
    (hb : b1 ≤ b2) {st1 st2 : VWrapState}
    (hdom : VWrapDom cellH st1 st2) (c : Char) :
    VWrapDom cellH (vWrapStep cellH b1 st1 c) (vWrapStep cellH b2 st2 c) := by
  obtain ⟨hh1, hh2, hcnt⟩ := hdom
  unfold vWrapStep
  by_cases hnl : c = '\n'
  · rw [if_pos hnl, if_pos hnl]
    have key : ∀ (u1 u2 : VWrapState), u1.cur = [] → u2.cur = [] →
        u1.curH = 0 → u2.curH = 0 →
        u2.segs.length ≤ u1.segs.length → VWrapDom cellH u1 u2 := by
      intro u1 u2 e1 e2 z1 z2 hle
      refine ⟨by rw [e1, z1]; simp, by rw [e2, z2]; simp, ?_⟩
      rcases Nat.lt_or_ge u2.segs.length u1.segs.length with h | h
      · exact Or.inl h
      · exact Or.inr ⟨Nat.le_antisymm hle h, by rw [e1, e2]⟩
    by_cases hc2 : st2.cur ≠ []
    · by_cases hc1 : st1.cur ≠ []
      · rw [if_pos hc1, if_pos hc2]
        apply key _ _ rfl rfl rfl rfl
        rcases hcnt with h | ⟨h, _⟩ <;> simp <;> omega
      · rw [if_neg hc1, if_pos hc2]
        apply key _ _ rfl rfl rfl rfl
        rcases hcnt with h | ⟨h, hlen⟩
        · simp; omega
        · rw [not_not] at hc1
          rw [hc1] at hlen
          simp at hlen
          exact absurd hlen hc2
    · by_cases hc1 : st1.cur ≠ []
      · rw [if_pos hc1, if_neg hc2]
        apply key _ _ rfl rfl rfl rfl
        rcases hcnt with h | ⟨h, _⟩ <;> simp <;> omega
      · rw [if_neg hc1, if_neg hc2]
        apply key _ _ rfl rfl rfl rfl
        rcases hcnt with h | ⟨h, _⟩ <;> simp <;> omega
  · rw [if_neg hnl, if_neg hnl]
    have hgrow : ∀ (u : VWrapState), u.curH = (u.cur.length : ℤ) * cellH →
        u.curH + cellH = ((u.cur ++ [c]).length : ℤ) * cellH := by
      intro u hu
      rw [hu]
      simp only [List.length_append, List.length_singleton]
      push_cast
      ring
    by_cases hf2 : st2.cur = [] ∨ st2.curH + cellH ≤ b2
    · rw [if_pos hf2]
      by_cases hf1 : st1.cur = [] ∨ st1.curH + cellH ≤ b1
      · rw [if_pos hf1]
        refine ⟨hgrow _ hh1, hgrow _ hh2, ?_⟩
        rcases hcnt with h | ⟨h, hlen⟩
        · exact Or.inl h
        · exact Or.inr ⟨h, by simp; omega⟩
      · rw [if_neg hf1]
        refine ⟨by simp, hgrow _ hh2, ?_⟩
        left
        simp only [VWrapState.segs, List.length_append, List.length_singleton]
        rcases hcnt with h | ⟨h, _⟩ <;> omega
    · rw [if_neg hf2]
      push_neg at hf2
      obtain ⟨hc2, hover2⟩ := hf2
      rcases hcnt with h | ⟨h, hlen⟩
      · by_cases hf1 : st1.cur = [] ∨ st1.curH + cellH ≤ b1
        · rw [if_pos hf1]
          refine ⟨hgrow _ hh1, by simp, ?_⟩
          rcases Nat.lt_or_ge (st2.segs.length + 1) st1.segs.length with h2 | h2
          · left
            simpa using h2
          · right
            have heq2 : st2.segs.length + 1 = st1.segs.length := by omega
            refine ⟨by simpa using heq2, ?_⟩
            simp
        · rw [if_neg hf1]
          refine ⟨by simp, by simp, ?_⟩
          left
          simp only [VWrapState.segs, List.length_append, List.length_singleton]
          omega
      · have hlen2 : 1 ≤ st2.cur.length := by
          cases hq : st2.cur with
          | nil => exact absurd hq hc2
          | cons a t => simp
        have hc1len : 1 ≤ st1.cur.length := le_trans hlen2 hlen
        have hf1 : ¬ (st1.cur = [] ∨ st1.curH + cellH ≤ b1) := by
          push_neg
          constructor
          · intro hq
            rw [hq] at hc1len
            simp at hc1len
          · have hmul : (st2.cur.length : ℤ) * cellH ≤ (st1.cur.length : ℤ) * cellH := by
              apply mul_le_mul_of_nonneg_right _ (le_of_lt hcell)
              exact_mod_cast hlen
            rw [hh1]
            rw [hh2] at hover2
            omega
        rw [if_neg hf1]
        refine ⟨by simp, by simp, ?_⟩
        right
        constructor
        · simp only [VWrapState.segs, List.length_append, List.length_singleton]
          omega
        · simp

theorem vWrap_dom_run {cellH : ℤ} (hcell : 0 < cellH) {b1 b2 : ℤ}
    (hb : b1 ≤ b2) :
    ∀ (text : List Char) {st1 st2 : VWrapState}, VWrapDom cellH st1 st2 →
      VWrapDom cellH (text.foldl (vWrapStep cellH b1) st1)
        (text.foldl (vWrapStep cellH b2) st2) := by
  intro text
  induction text with
  | nil => exact fun h => h
  | cons c t ih =>
    intro st1 st2 hdom
    rw [List.foldl_cons, List.foldl_cons]
    exact ih (vWrap_dom_step hcell hb hdom c)

theorem vFinSegs_length (st : VWrapState) :
    (vFinSegs st).length =
      st.segs.length + (if st.cur ≠ [] then 1 else 0) := by
  unfold vFinSegs
  by_cases hcur : st.cur ≠ []
  · rw [if_pos hcur, if_pos hcur]; simp
  · rw [if_neg hcur, if_neg hcur]
    simp

theorem vWrap_count_mono {cellH : ℤ} (hcell : 0 < cellH) {b1 b2 : ℤ}
    (hb : b1 ≤ b2) (text : List Char) :
    (vFinSegs (vWrapRun cellH b2 text)).length ≤
      (vFinSegs (vWrapRun cellH b1 text)).length := by
  have hdom : VWrapDom cellH (vWrapRun cellH b1 text) (vWrapRun cellH b2 text) :=
    vWrap_dom_run hcell hb text ⟨by simp, by simp, Or.inr ⟨rfl, le_refl _⟩⟩
  obtain ⟨_, _, hcnt⟩ := hdom
  rw [vFinSegs_length, vFinSegs_length]
  rcases hcnt with hlt | ⟨heq, hlen⟩
  · by_cases h2 : (vWrapRun cellH b2 text).cur ≠ [] <;>
      by_cases h1 : (vWrapRun cellH b1 text).cur ≠ [] <;>
      simp [h1, h2] <;> omega
  · by_cases h2 : (vWrapRun cellH b2 text).cur ≠ []
    · have h1 : (vWrapRun cellH b1 text).cur ≠ [] := by
        intro hq
        rw [hq] at hlen
        simp at hlen
        exact h2 hlen
      simp [h1, h2]
      omega
    · by_cases h1 : (vWrapRun cellH b1 text).cur ≠ [] <;> simp [h1, h2] <;> omega

theorem vWrap_maxh_inv (cellH maxDim : ℤ) :
    ∀ (text : List Char) (st : VWrapState),
      st.curH = (st.cur.length : ℤ) * cellH →
      (∀ s ∈ st.segs, (s.length : ℤ) * cellH ≤ st.maxh) →
      0 ≤ st.maxh →
      (text.foldl (vWrapStep cellH maxDim) st).curH =
        (((text.foldl (vWrapStep cellH maxDim) st).cur.length : ℤ) * cellH) ∧
      st.maxh ≤ (text.foldl (vWrapStep cellH maxDim) st).maxh ∧
      0 ≤ (text.foldl (vWrapStep cellH maxDim) st).maxh ∧
      (∀ s ∈ (text.foldl (vWrapStep cellH maxDim) st).segs,
        (s.length : ℤ) * cellH ≤ (text.foldl (vWrapStep cellH maxDim) st).maxh) := by
  intro text
  induction text with
  | nil => exact fun st hh hs h0 => ⟨hh, le_refl _, h0, hs⟩
  | cons c t ih =>
    intro st hh hs h0
    rw [List.foldl_cons]
    have hstep : (vWrapStep cellH maxDim st c).curH =
          (((vWrapStep cellH maxDim st c).cur.length : ℤ) * cellH) ∧
        st.maxh ≤ (vWrapStep cellH maxDim st c).maxh ∧
        0 ≤ (vWrapStep cellH maxDim st c).maxh ∧
        (∀ s ∈ (vWrapStep cellH maxDim st c).segs,
          (s.length : ℤ) * cellH ≤ (vWrapStep cellH maxDim st c).maxh) := by
      unfold vWrapStep
      by_cases hnl : c = '\n'
      · rw [if_pos hnl]
        by_cases hcur : st.cur ≠ []
        · rw [if_pos hcur]
          refine ⟨by simp, le_max_left _ _, ?_, ?_⟩
          · exact le_max_iff.mpr (Or.inl h0)
          · intro s hsm
            simp only [VWrapState.segs, VWrapState.maxh, List.mem_append,
              List.mem_cons, List.mem_singleton, List.not_mem_nil, or_false] at hsm ⊢
            rcases hsm with hsm | hsm | hsm
            · exact le_trans (hs s hsm) (le_max_left _ _)
            · rw [hsm, ← hh]
              exact le_max_right _ _
            · rw [hsm]
              simp
              exact Or.inl h0
        · rw [if_neg hcur]
          refine ⟨by simp, le_refl _, h0, ?_⟩
          intro s hsm
          simp only [VWrapState.segs, List.mem_append, List.mem_singleton] at hsm
          rcases hsm with hsm | hsm
          · exact hs s hsm
          · rw [hsm]
            simpa using h0
      · rw [if_neg hnl]
        by_cases hfit : st.cur = [] ∨ st.curH + cellH ≤ maxDim
        · rw [if_pos hfit]
          refine ⟨?_, le_refl _, h0, hs⟩
          simp only [VWrapState.curH, VWrapState.cur, List.length_append,
            List.length_singleton]
          push_cast
          rw [hh]; ring
        · rw [if_neg hfit]
          refine ⟨by simp, le_max_left _ _, le_max_iff.mpr (Or.inl h0), ?_⟩
          intro s hsm
          simp only [VWrapState.segs, VWrapState.maxh, List.mem_append,
            List.mem_singleton] at hsm ⊢
          rcases hsm with hsm | hsm
          · exact le_trans (hs s hsm) (le_max_left _ _)
          · rw [hsm, ← hh]
            exact le_max_right _ _
    obtain ⟨s1, s2, s3, s4⟩ := ih (vWrapStep cellH maxDim st c) hstep.1 hstep.2.2.2
      hstep.2.2.1
    exact ⟨s1, le_trans hstep.2.1 s2, s3, s4⟩
theorem vFinMaxh_ge_run (st : VWrapState) : st.maxh ≤ vFinMaxh st := by
  unfold vFinMaxh
  by_cases hcur : st.cur ≠ []
  · rw [if_pos hcur]; exact le_max_left _ _
  · rw [if_neg hcur]

theorem vWrap_maxh_upper {cellH b : ℤ} (hcell : 0 < cellH) :
    ∀ (text : List Char) (st : VWrapState),
      st.curH = (st.cur.length : ℤ) * cellH →
      st.maxh ≤ max b cellH →
      (st.curH ≤ b ∨ st.cur.length ≤ 1) →
      (text.foldl (vWrapStep cellH b) st).curH =
          (((text.foldl (vWrapStep cellH b) st).cur.length : ℤ) * cellH) ∧
        (text.foldl (vWrapStep cellH b) st).maxh ≤ max b cellH ∧
        ((text.foldl (vWrapStep cellH b) st).curH ≤ b ∨
          (text.foldl (vWrapStep cellH b) st).cur.length ≤ 1) := by
  intro text
  induction text with
  | nil => exact fun st h1 h2 h3 => ⟨h1, h2, h3⟩
  | cons c t ih =>
    intro st h1 h2 h3
    rw [List.foldl_cons]
    have hcurb : st.curH ≤ max b cellH := by
      rcases h3 with h | h
      · exact le_trans h (le_max_left _ _)
      · rw [h1]
        calc (st.cur.length : ℤ) * cellH ≤ 1 * cellH := by
              apply mul_le_mul_of_nonneg_right _ (le_of_lt hcell)
              exact_mod_cast h
          _ = cellH := one_mul _
          _ ≤ max b cellH := le_max_right _ _
    have hstep : (vWrapStep cellH b st c).curH =
          (((vWrapStep cellH b st c).cur.length : ℤ) * cellH) ∧
        (vWrapStep cellH b st c).maxh ≤ max b cellH ∧
        ((vWrapStep cellH b st c).curH ≤ b ∨
          (vWrapStep cellH b st c).cur.length ≤ 1) := by
      unfold vWrapStep
      by_cases hnl : c = '\n'
      · rw [if_pos hnl]
        by_cases hcur : st.cur ≠ []
        · rw [if_pos hcur]
          exact ⟨by simp, max_le h2 hcurb, Or.inr (by simp)⟩
        · rw [if_neg hcur]
          exact ⟨by simp, h2, Or.inr (by simp)⟩
      · rw [if_neg hnl]
        by_cases hfit : st.cur = [] ∨ st.curH + cellH ≤ b
        · rw [if_pos hfit]
          refine ⟨?_, h2, ?_⟩
          · simp only [VWrapState.curH, VWrapState.cur, List.length_append,
              List.length_singleton]
            push_cast
            rw [h1]; ring
          · by_cases hle : st.curH + cellH ≤ b
            · exact Or.inl hle
            · rcases hfit with h | h
              · right
                simp only [VWrapState.cur, h]
                simp
              · exact absurd h hle
        · rw [if_neg hfit]
          exact ⟨by simp, max_le h2 hcurb, Or.inr (by simp)⟩
    obtain ⟨s1, s2, s3⟩ := ih (vWrapStep cellH b st c) hstep.1 hstep.2.1 hstep.2.2
    exact ⟨s1, s2, s3⟩

theorem vFinMaxh_le {cellH b : ℤ} (hcell : 0 < cellH) (text : List Char) :
    vFinMaxh (vWrapRun cellH b text) ≤ max b cellH := by
  have hinv : (vWrapRun cellH b text).curH =
        (((vWrapRun cellH b text).cur.length : ℤ) * cellH) ∧
      (vWrapRun cellH b text).maxh ≤ max b cellH ∧
      ((vWrapRun cellH b text).curH ≤ b ∨
        (vWrapRun cellH b text).cur.length ≤ 1) :=
    vWrap_maxh_upper hcell text ⟨[], [], 0, 0⟩ (by simp)
      (le_max_iff.mpr (Or.inr (le_of_lt hcell))) (Or.inr (by simp))
  obtain ⟨h1, h2, h3⟩ := hinv
  unfold vFinMaxh
  by_cases hcur : (vWrapRun cellH b text).cur ≠ []
  · rw [if_pos hcur]
    apply max_le h2
    rcases h3 with h | h
    · exact le_trans h (le_max_left _ _)
    · rw [h1]
      calc ((vWrapRun cellH b text).cur.length : ℤ) * cellH ≤ 1 * cellH := by
            apply mul_le_mul_of_nonneg_right _ (le_of_lt hcell)
            exact_mod_cast h
        _ = cellH := one_mul _
        _ ≤ max b cellH := le_max_right _ _
  · rw [if_neg hcur]
    exact h2

theorem cellH_le_vFinMaxh {cellH b : ℤ} (hcell : 0 < cellH) {text : List Char}
    {c : Char} (hc : c ∈ text) (hnl : c ≠ '\n') :
    cellH ≤ vFinMaxh (vWrapRun cellH b text) := by
  have hj := vWrap_join cellH b text ⟨[], [], 0, 0⟩
  simp only [VWrapState.segs, VWrapState.cur, List.flatten_nil,
    List.nil_append] at hj
  have hcf : c ∈ (vWrapRun cellH b text).segs.flatten ++
      (vWrapRun cellH b text).cur := by
    show c ∈ (List.foldl (vWrapStep cellH b) ⟨[], [], 0, 0⟩ text).segs.flatten ++
      (List.foldl (vWrapStep cellH b) ⟨[], [], 0, 0⟩ text).cur
    rw [hj]
    exact List.mem_filter.mpr ⟨hc, by simpa using hnl⟩
  have hinv : (vWrapRun cellH b text).curH =
        (((vWrapRun cellH b text).cur.length : ℤ) * cellH) ∧
      (0 : ℤ) ≤ (vWrapRun cellH b text).maxh ∧
      0 ≤ (vWrapRun cellH b text).maxh ∧
      (∀ s ∈ (vWrapRun cellH b text).segs,
        (s.length : ℤ) * cellH ≤ (vWrapRun cellH b text).maxh) :=
    vWrap_maxh_inv cellH b text ⟨[], [], 0, 0⟩ (by simp)
      (by intro s hs; simp at hs) (le_refl 0)
  rcases List.mem_append.mp hcf with hm | hm
  · obtain ⟨s, hsm, hcs⟩ := List.mem_flatten.mp hm
    have hlen : 1 ≤ s.length := List.length_pos.mpr (List.ne_nil_of_mem hcs)
    calc cellH = 1 * cellH := (one_mul _).symm
      _ ≤ (s.length : ℤ) * cellH := by
          apply mul_le_mul_of_nonneg_right _ (le_of_lt hcell)
          exact_mod_cast hlen
      _ ≤ (vWrapRun cellH b text).maxh := hinv.2.2.2 s hsm
      _ ≤ vFinMaxh (vWrapRun cellH b text) := vFinMaxh_ge_run _
  · have hcur : (vWrapRun cellH b text).cur ≠ [] := List.ne_nil_of_mem hm
    have hlen : 1 ≤ (vWrapRun cellH b text).cur.length :=
      List.length_pos.mpr hcur
    calc cellH = 1 * cellH := (one_mul _).symm
      _ ≤ ((vWrapRun cellH b text).cur.length : ℤ) * cellH := by
          apply mul_le_mul_of_nonneg_right _ (le_of_lt hcell)
          exact_mod_cast hlen
      _ = (vWrapRun cellH b text).curH := hinv.1.symm
      _ ≤ vFinMaxh (vWrapRun cellH b text) := by
          unfold vFinMaxh
          rw [if_pos hcur]
          exact le_max_right _ _

theorem vPrimary_mono {colM lsp : ℚ} (hcm : 0 ≤ colM) (hls : 0 ≤ lsp)
    {n m : ℕ} (h : n ≤ m) :
    pyInt ((n : ℚ) * colM + (if (n : ℤ) > 1 then ((n : ℚ) - 1) * lsp else 0)) ≤
      pyInt ((m : ℚ) * colM + (if (m : ℤ) > 1 then ((m : ℚ) - 1) * lsp else 0)) := by
  apply pyInt_mono
  have hnm : (n : ℚ) ≤ (m : ℚ) := by exact_mod_cast h
  have hn0 : (0 : ℚ) ≤ (n : ℚ) := by positivity
  by_cases h1 : (n : ℤ) > 1
  · have h2 : (m : ℤ) > 1 := lt_of_lt_of_le h1 (by exact_mod_cast h)
    rw [if_pos h1, if_pos h2]
    have h1q : (1 : ℚ) ≤ (n : ℚ) := by exact_mod_cast h1.le
    nlinarith
  · rw [if_neg h1]
    by_cases h2 : (m : ℤ) > 1
    · rw [if_pos h2]
      have h1q : (1 : ℚ) ≤ (m : ℚ) := by exact_mod_cast h2.le
      nlinarith
    · rw [if_neg h2]
      nlinarith

theorem colWidthMetric_nonneg {colW : ℚ} {fs ds : ℤ} (hcw : 0 ≤ colW)
    (hfs : 0 ≤ fs) (hds : 0 ≤ ds) : 0 ≤ colWidthMetric colW fs ds := by
  show 0 ≤ (if (if colW = 0 then (fs : ℚ) else colW) = 0 then (ds : ℚ)
    else (if colW = 0 then (fs : ℚ) else colW))
  by_cases h1 : colW = 0
  · rw [if_pos h1]
    by_cases h2 : (fs : ℚ) = 0
    · rw [if_pos h2]
      exact_mod_cast hds
    · rw [if_neg h2]
      exact_mod_cast hfs
  · rw [if_neg h1]
    by_cases h2 : colW = 0
    · rw [if_pos h2]
      exact_mod_cast hds
    · rw [if_neg h2]
      exact hcw

theorem hWrap_maxA_le {w : List Char → ℚ} {sp : ℤ}
    (hadd : ∀ a b, w (a ++ b) = w a + w b) (hposc : ∀ c, 0 ≤ w [c])
    (hsp : 0 ≤ sp) {b1 b2 : ℤ} (h1 : 1 ≤ b1) (h12 : b1 ≤ b2)
    (text : List Char) :
    pyInt (hFinMaxw w sp (hWrapRun w sp b2 text)) ≤
      max b2 (pyInt (hFinMaxw w sp (hWrapRun w sp b1 text))) := by
  have hb2 : (1 : ℚ) ≤ (b2 : ℚ) := by exact_mod_cast le_trans h1 h12
  have key : hFinMaxw w sp (hWrapRun w sp b2 text) ≤
      max (b2 : ℚ) (hFinMaxw w sp (hWrapRun w sp b1 text)) := by
    apply hFinMaxw_le (le_max_left _ _)
      (le_trans (le_trans zero_le_one hb2) (le_max_left _ _))
    intro c hc hnl
    exact le_trans (hWrap_char_le_maxw hadd hposc hsp hc hnl) (le_max_right _ _)
  rcases le_max_iff.mp key with h | h
  · have := pyInt_mono h
    rw [pyInt_intCast] at this
    exact le_trans this (le_max_left _ _)
  · exact le_trans (pyInt_mono h) (le_max_right _ _)

theorem vWrap_maxA_le {cellH : ℤ} (hcell : 0 < cellH) {b1 b2 : ℤ}
    (h12 : b1 ≤ b2) {text : List Char} {c : Char} (hc : c ∈ text)
    (hnl : c ≠ '\n') :
    vFinMaxh (vWrapRun cellH b2 text) ≤
      max b2 (vFinMaxh (vWrapRun cellH b1 text)) := by
  apply le_trans (vFinMaxh_le hcell text)
  apply max_le (le_max_left _ _)
  exact le_trans (cellH_le_vFinMaxh hcell hc hnl) (le_max_right _ _)

theorem expandedBox_dx (bbox : Box) (fw fh : ℚ) :
    (expandedBox bbox fw fh).x1 - (expandedBox bbox fw fh).x0 = fw := by
  simp only [expandedBox]
  ring

theorem expandedBox_dy (bbox : Box) (fw fh : ℚ) :
    (expandedBox bbox fw fh).y1 - (expandedBox bbox fw fh).y0 = fh := by
  simp only [expandedBox]
  ring

theorem text_ne_nil_of_pyStrip {text : List Char} (h : pyStrip text ≠ []) :
    text ≠ [] := by
  intro h0
  subst h0
  exact h rfl

theorem exists_non_newline_of_pyStrip {text : List Char}
    (h : pyStrip text ≠ []) : ∃ c ∈ text, c ≠ '\n' := by
  by_contra hall
  push_neg at hall
  apply h
  unfold pyStrip
  have h1 : text.dropWhile Char.isWhitespace = [] := by
    rw [List.dropWhile_eq_nil_iff]
    intro x hx
    rw [hall x hx]
    decide
  rw [h1]
  rfl
/-- Branch characterization of `_adjust_block_bbox_for_text_fit`: either the
bbox is returned unchanged, or the guards all passed and the bbox grows
symmetrically to the clamped required size. -/
theorem adjustBbox_spec (cfg : AdjustCfg) (fontOk : Bool) (w : List Char → ℚ)
    (baseLineH : ℤ) (colW : ℚ) (fontSize : ℤ) (dir : WrapDir)
    (text : List Char) (bbox : Box) :
    adjustBbox cfg fontOk w baseLineH colW fontSize dir text bbox = bbox ∨
    (¬ ¬ cfg.enabled ∧ ¬ (pyStrip text = [] ∨ ¬ fontOk) ∧
     0 < (bbox.x1 - bbox.x0) - 2 * (cfg.textPadding : ℚ) ∧
     0 < (bbox.y1 - bbox.y0) - 2 * (cfg.textPadding : ℚ) ∧
     adjustBbox cfg fontOk w baseLineH colW fontSize dir text bbox =
       expandedBox bbox
         (max (max (bbox.x1 - bbox.x0)
           (((adjustNeeded cfg fontOk w baseLineH colW fontSize dir text bbox).1
             + 2 * cfg.textPadding : ℤ) : ℚ)) 10)
         (max (max (bbox.y1 - bbox.y0)
           (((adjustNeeded cfg fontOk w baseLineH colW fontSize dir text bbox).2
             + 2 * cfg.textPadding : ℤ) : ℚ)) 10)) := by
  unfold adjustBbox
  by_cases h1 : ¬ cfg.enabled
  · rw [if_pos h1]
    exact Or.inl rfl
  rw [if_neg h1]
  by_cases h2 : pyStrip text = [] ∨ ¬ fontOk
  · rw [if_pos h2]
    exact Or.inl rfl
  rw [if_neg h2]
  by_cases h3 : bbox.x1 - bbox.x0 ≤ 0 ∨ bbox.y1 - bbox.y0 ≤ 0
  · rw [if_pos h3]
    exact Or.inl rfl
  rw [if_neg h3]
  by_cases h4 : (bbox.x1 - bbox.x0) - 2 * (cfg.textPadding : ℚ) ≤ 0 ∨
      (bbox.y1 - bbox.y0) - 2 * (cfg.textPadding : ℚ) ≤ 0
  · rw [if_pos h4]
    exact Or.inl rfl
  rw [if_neg h4]
  push_neg at h4
  by_cases h5 : (adjustNeeded cfg fontOk w baseLineH colW fontSize dir text bbox).1 ≤ 0 ∧
      (adjustNeeded cfg fontOk w baseLineH colW fontSize dir text bbox).2 ≤ 0 ∧
      text ≠ []
  · rw [if_pos h5]
    exact Or.inl rfl
  rw [if_neg h5]
  by_cases h6 : (((adjustNeeded cfg fontOk w baseLineH colW fontSize dir text bbox).1
        + 2 * cfg.textPadding : ℤ) : ℚ) > bbox.x1 - bbox.x0 ∨
      (((adjustNeeded cfg fontOk w baseLineH colW fontSize dir text bbox).2
        + 2 * cfg.textPadding : ℤ) : ℚ) > bbox.y1 - bbox.y0
  · rw [if_pos h6]
    exact Or.inr ⟨h1, h2, h4.1, h4.2, rfl⟩
  · rw [if_neg h6]
    exact Or.inl rfl
/-- C3 (amended): on the real wrapping path — additive nonnegative text
measure, nonnegative spacings, positive line/cell heights, and a wrap budget
of at least one pixel on each axis of the original box — running
`_adjust_block_bbox_for_text_fit` a second time on the adjusted bbox
returns it unchanged. -/
theorem autofit_idempotent_on_real_path
    (cfg : AdjustCfg) (w : List Char → ℚ) (baseLineH : ℤ) (colW : ℚ)
    (fontSize : ℤ) (dir : WrapDir) (text : List Char) (bbox : Box)
    (hadd : ∀ a b, w (a ++ b) = w a + w b) (hposc : ∀ c, 0 ≤ w [c])
    (hsp : 0 ≤ cfg.hCharSp) (hlh : 0 ≤ baseLineH + cfg.hLineSp)
    (hvc : 0 < baseLineH + cfg.vCharSp) (hvs : 0 ≤ cfg.vColSp)
    (hcw : 0 ≤ colW) (hfs : 0 ≤ fontSize)
    (hbw : 1 ≤ wrapBudget ((bbox.x1 - bbox.x0) - 2 * (cfg.textPadding : ℚ)))
    (hbh : 1 ≤ wrapBudget ((bbox.y1 - bbox.y0) - 2 * (cfg.textPadding : ℚ))) :
    adjustBbox cfg true w baseLineH colW fontSize dir text
        (adjustBbox cfg true w baseLineH colW fontSize dir text bbox) =
      adjustBbox cfg true w baseLineH colW fontSize dir text bbox := by
  cases dir with
  | horizontal =>
    rcases adjustBbox_spec cfg true w baseLineH colW fontSize
        WrapDir.horizontal text bbox with hself | ⟨hen, hok, hpw, hph, hexp⟩
    · rw [hself]
      exact hself
    rw [hexp]
    have hst : pyStrip text ≠ [] := fun h => hok (Or.inl h)
    have ht : text ≠ [] := text_ne_nil_of_pyStrip hst
    set FW := max (max (bbox.x1 - bbox.x0)
      (((adjustNeeded cfg true w baseLineH colW fontSize WrapDir.horizontal
          text bbox).1 + 2 * cfg.textPadding : ℤ) : ℚ)) 10 with hFW
    set FH := max (max (bbox.y1 - bbox.y0)
      (((adjustNeeded cfg true w baseLineH colW fontSize WrapDir.horizontal
          text bbox).2 + 2 * cfg.textPadding : ℤ) : ℚ)) 10 with hFH
    have hWle : bbox.x1 - bbox.x0 ≤ FW := by
      rw [hFW]
      exact le_trans (le_max_left _ _) (le_max_left _ _)
    have hHle : bbox.y1 - bbox.y0 ≤ FH := by
      rw [hFH]
      exact le_trans (le_max_left _ _) (le_max_left _ _)
    have hFWpos : 0 < FW := by
      rw [hFW]
      exact lt_of_lt_of_le (by norm_num) (le_max_right _ _)
    have hFHpos : 0 < FH := by
      rw [hFH]
      exact lt_of_lt_of_le (by norm_num) (le_max_right _ _)
    have hFWp : 0 < FW - 2 * (cfg.textPadding : ℚ) := by linarith
    have hFHp : 0 < FH - 2 * (cfg.textPadding : ℚ) := by linarith
    have hreqW : (((adjustNeeded cfg true w baseLineH colW fontSize
        WrapDir.horizontal text bbox).1 + 2 * cfg.textPadding : ℤ) : ℚ) ≤ FW := by
      rw [hFW]
      exact le_trans (le_max_right _ _) (le_max_left _ _)
    have hreqH : (((adjustNeeded cfg true w baseLineH colW fontSize
        WrapDir.horizontal text bbox).2 + 2 * cfg.textPadding : ℤ) : ℚ) ≤ FH := by
      rw [hFH]
      exact le_trans (le_max_right _ _) (le_max_left _ _)
    -- budgets
    have hb1eq : wrapBudget ((bbox.x1 - bbox.x0) - 2 * (cfg.textPadding : ℚ)) =
        pyInt ((bbox.x1 - bbox.x0) - 2 * (cfg.textPadding : ℚ)) := by
      unfold wrapBudget
      rw [if_pos hpw]
    have hb2eq : wrapBudget (((expandedBox bbox FW FH).x1 -
          (expandedBox bbox FW FH).x0) - 2 * (cfg.textPadding : ℚ)) =
        pyInt (FW - 2 * (cfg.textPadding : ℚ)) := by
      rw [expandedBox_dx]
      unfold wrapBudget
      rw [if_pos hFWp]
    have hB1pos : 0 < wrapBudget ((bbox.x1 - bbox.x0) -
        2 * (cfg.textPadding : ℚ)) := lt_of_lt_of_le one_pos hbw
    have hB12 : wrapBudget ((bbox.x1 - bbox.x0) - 2 * (cfg.textPadding : ℚ)) ≤
        pyInt (FW - 2 * (cfg.textPadding : ℚ)) := by
      rw [hb1eq]
      exact pyInt_mono (by linarith)
    have hB2ge1 : 1 ≤ pyInt (FW - 2 * (cfg.textPadding : ℚ)) :=
      le_trans hbw hB12
    have hB2pos : 0 < pyInt (FW - 2 * (cfg.textPadding : ℚ)) :=
      lt_of_lt_of_le one_pos hB2ge1
    -- component equations
    have hN1 : (adjustNeeded cfg true w baseLineH colW fontSize
        WrapDir.horizontal text bbox).1 =
        pyInt (hFinMaxw w cfg.hCharSp (hWrapRun w cfg.hCharSp
          (wrapBudget ((bbox.x1 - bbox.x0) - 2 * (cfg.textPadding : ℚ)))
          text)) := by
      show (wrapTextPil true w baseLineH colW fontSize text
        (wrapBudget ((bbox.x1 - bbox.x0) - 2 * (cfg.textPadding : ℚ)))
        WrapDir.horizontal cfg.hCharSp cfg.hLineSp).maxAchieved = _
      rw [wrap_h_main w baseLineH colW fontSize text _ cfg.hCharSp cfg.hLineSp
        ht hB1pos]
    have hT1 : (adjustNeeded cfg true w baseLineH colW fontSize
        WrapDir.horizontal text bbox).2 =
        ((hFinSegs (hWrapRun w cfg.hCharSp
          (wrapBudget ((bbox.x1 - bbox.x0) - 2 * (cfg.textPadding : ℚ)))
          text)).length : ℤ) * (baseLineH + cfg.hLineSp) := by
      show (wrapTextPil true w baseLineH colW fontSize text
        (wrapBudget ((bbox.x1 - bbox.x0) - 2 * (cfg.textPadding : ℚ)))
        WrapDir.horizontal cfg.hCharSp cfg.hLineSp).totalPrimary = _
      rw [wrap_h_main w baseLineH colW fontSize text _ cfg.hCharSp cfg.hLineSp
        ht hB1pos]
    have hN2 : (adjustNeeded cfg true w baseLineH colW fontSize
        WrapDir.horizontal text (expandedBox bbox FW FH)).1 =
        pyInt (hFinMaxw w cfg.hCharSp (hWrapRun w cfg.hCharSp
          (pyInt (FW - 2 * (cfg.textPadding : ℚ))) text)) := by
      show (wrapTextPil true w baseLineH colW fontSize text
        (wrapBudget (((expandedBox bbox FW FH).x1 -
          (expandedBox bbox FW FH).x0) - 2 * (cfg.textPadding : ℚ)))
        WrapDir.horizontal cfg.hCharSp cfg.hLineSp).maxAchieved = _
      rw [hb2eq, wrap_h_main w baseLineH colW fontSize text _ cfg.hCharSp
        cfg.hLineSp ht hB2pos]
    have hT2 : (adjustNeeded cfg true w baseLineH colW fontSize
        WrapDir.horizontal text (expandedBox bbox FW FH)).2 =
        ((hFinSegs (hWrapRun w cfg.hCharSp
          (pyInt (FW - 2 * (cfg.textPadding : ℚ))) text)).length : ℤ) *
          (baseLineH + cfg.hLineSp) := by
      show (wrapTextPil true w baseLineH colW fontSize text
        (wrapBudget (((expandedBox bbox FW FH).x1 -
          (expandedBox bbox FW FH).x0) - 2 * (cfg.textPadding : ℚ)))
        WrapDir.horizontal cfg.hCharSp cfg.hLineSp).totalPrimary = _
      rw [hb2eq, wrap_h_main w baseLineH colW fontSize text _ cfg.hCharSp
        cfg.hLineSp ht hB2pos]
    -- the second call keeps the expanded box
    unfold adjustBbox
    rw [expandedBox_dx, expandedBox_dy]
    rw [if_neg hen, if_neg hok]
    rw [if_neg (show ¬ (FW ≤ 0 ∨ FH ≤ 0) by
      push_neg
      exact ⟨hFWpos, hFHpos⟩)]
    rw [if_neg (show ¬ (FW - 2 * (cfg.textPadding : ℚ) ≤ 0 ∨
        FH - 2 * (cfg.textPadding : ℚ) ≤ 0) by
      push_neg
      exact ⟨hFWp, hFHp⟩)]
    by_cases h5 : (adjustNeeded cfg true w baseLineH colW fontSize
        WrapDir.horizontal text (expandedBox bbox FW FH)).1 ≤ 0 ∧
        (adjustNeeded cfg true w baseLineH colW fontSize
        WrapDir.horizontal text (expandedBox bbox FW FH)).2 ≤ 0 ∧ text ≠ []
    · rw [if_pos h5]
    rw [if_neg h5]
    rw [if_neg (show ¬ ((((adjustNeeded cfg true w baseLineH colW fontSize
        WrapDir.horizontal text (expandedBox bbox FW FH)).1 +
          2 * cfg.textPadding : ℤ) : ℚ) > FW ∨
        (((adjustNeeded cfg true w baseLineH colW fontSize
        WrapDir.horizontal text (expandedBox bbox FW FH)).2 +
          2 * cfg.textPadding : ℤ) : ℚ) > FH) by
      push_neg
      constructor
      · rw [hN2]
        have hmax := hWrap_maxA_le hadd hposc hsp hbw hB12 text
        rw [← hN1] at hmax
        rcases le_max_iff.mp hmax with hca | hcb
        · have h1 : ((pyInt (FW - 2 * (cfg.textPadding : ℚ)) : ℤ) : ℚ) ≤
              FW - 2 * (cfg.textPadding : ℚ) := pyInt_le_self (le_of_lt hFWp)
          have h2 : ((pyInt (hFinMaxw w cfg.hCharSp (hWrapRun w cfg.hCharSp
              (pyInt (FW - 2 * (cfg.textPadding : ℚ))) text)) : ℤ) : ℚ) ≤
              ((pyInt (FW - 2 * (cfg.textPadding : ℚ)) : ℤ) : ℚ) := by
            exact_mod_cast hca
          push_cast at h2 h1 ⊢
          linarith
        · have h3 : pyInt (hFinMaxw w cfg.hCharSp (hWrapRun w cfg.hCharSp
              (pyInt (FW - 2 * (cfg.textPadding : ℚ))) text)) +
              2 * cfg.textPadding ≤
              (adjustNeeded cfg true w baseLineH colW fontSize
                WrapDir.horizontal text bbox).1 + 2 * cfg.textPadding := by
            omega
          calc ((pyInt (hFinMaxw w cfg.hCharSp (hWrapRun w cfg.hCharSp
                (pyInt (FW - 2 * (cfg.textPadding : ℚ))) text)) +
                2 * cfg.textPadding : ℤ) : ℚ) ≤
              (((adjustNeeded cfg true w baseLineH colW fontSize
                WrapDir.horizontal text bbox).1 + 2 * cfg.textPadding : ℤ) : ℚ) := by
                exact_mod_cast h3
            _ ≤ FW := hreqW
      · rw [hT2]
        have hcnt := hWrap_count_mono hadd hposc hsp hB12 text
        have h4 : ((hFinSegs (hWrapRun w cfg.hCharSp
            (pyInt (FW - 2 * (cfg.textPadding : ℚ))) text)).length : ℤ) *
              (baseLineH + cfg.hLineSp) ≤
            ((hFinSegs (hWrapRun w cfg.hCharSp
            (wrapBudget ((bbox.x1 - bbox.x0) - 2 * (cfg.textPadding : ℚ)))
              text)).length : ℤ) * (baseLineH + cfg.hLineSp) :=
          mul_le_mul_of_nonneg_right (by exact_mod_cast hcnt) hlh
        have h5' : ((hFinSegs (hWrapRun w cfg.hCharSp
            (pyInt (FW - 2 * (cfg.textPadding : ℚ))) text)).length : ℤ) *
              (baseLineH + cfg.hLineSp) + 2 * cfg.textPadding ≤
            (adjustNeeded cfg true w baseLineH colW fontSize
              WrapDir.horizontal text bbox).2 + 2 * cfg.textPadding := by
          rw [hT1]
          linarith
        calc ((((hFinSegs (hWrapRun w cfg.hCharSp
              (pyInt (FW - 2 * (cfg.textPadding : ℚ))) text)).length : ℤ) *
              (baseLineH + cfg.hLineSp) + 2 * cfg.textPadding : ℤ) : ℚ) ≤
            (((adjustNeeded cfg true w baseLineH colW fontSize
              WrapDir.horizontal text bbox).2 + 2 * cfg.textPadding : ℤ) : ℚ) := by
              exact_mod_cast h5'
          _ ≤ FH := hreqH)]
  | vertical =>
    rcases adjustBbox_spec cfg true w baseLineH colW fontSize
        WrapDir.vertical text bbox with hself | ⟨hen, hok, hpw, hph, hexp⟩
    · rw [hself]
      exact hself
    rw [hexp]
    have hst : pyStrip text ≠ [] := fun h => hok (Or.inl h)
    have ht : text ≠ [] := text_ne_nil_of_pyStrip hst
    obtain ⟨cnl, hcnl, hcnlne⟩ := exists_non_newline_of_pyStrip hst
    set FW := max (max (bbox.x1 - bbox.x0)
      (((adjustNeeded cfg true w baseLineH colW fontSize WrapDir.vertical
          text bbox).1 + 2 * cfg.textPadding : ℤ) : ℚ)) 10 with hFW
    set FH := max (max (bbox.y1 - bbox.y0)
      (((adjustNeeded cfg true w baseLineH colW fontSize WrapDir.vertical
          text bbox).2 + 2 * cfg.textPadding : ℤ) : ℚ)) 10 with hFH
    have hWle : bbox.x1 - bbox.x0 ≤ FW := by
      rw [hFW]
      exact le_trans (le_max_left _ _) (le_max_left _ _)
    have hHle : bbox.y1 - bbox.y0 ≤ FH := by
      rw [hFH]
      exact le_trans (le_max_left _ _) (le_max_left _ _)
    have hFWpos : 0 < FW := by
      rw [hFW]
      exact lt_of_lt_of_le (by norm_num) (le_max_right _ _)
    have hFHpos : 0 < FH := by
      rw [hFH]
      exact lt_of_lt_of_le (by norm_num) (le_max_right _ _)
    have hFWp : 0 < FW - 2 * (cfg.textPadding : ℚ) := by linarith
    have hFHp : 0 < FH - 2 * (cfg.textPadding : ℚ) := by linarith
    have hreqW : (((adjustNeeded cfg true w baseLineH colW fontSize
        WrapDir.vertical text bbox).1 + 2 * cfg.textPadding : ℤ) : ℚ) ≤ FW := by
      rw [hFW]
      exact le_trans (le_max_right _ _) (le_max_left _ _)
    have hreqH : (((adjustNeeded cfg true w baseLineH colW fontSize
        WrapDir.vertical text bbox).2 + 2 * cfg.textPadding : ℤ) : ℚ) ≤ FH := by
      rw [hFH]
      exact le_trans (le_max_right _ _) (le_max_left _ _)
    -- budgets (the vertical wrap budget runs along the box height)
    have hb1eq : wrapBudget ((bbox.y1 - bbox.y0) - 2 * (cfg.textPadding : ℚ)) =
        pyInt ((bbox.y1 - bbox.y0) - 2 * (cfg.textPadding : ℚ)) := by
      unfold wrapBudget
      rw [if_pos hph]
    have hb2eq : wrapBudget (((expandedBox bbox FW FH).y1 -
          (expandedBox bbox FW FH).y0) - 2 * (cfg.textPadding : ℚ)) =
        pyInt (FH - 2 * (cfg.textPadding : ℚ)) := by
      rw [expandedBox_dy]
      unfold wrapBudget
      rw [if_pos hFHp]
    have hB1pos : 0 < wrapBudget ((bbox.y1 - bbox.y0) -
        2 * (cfg.textPadding : ℚ)) := lt_of_lt_of_le one_pos hbh
    have hB12 : wrapBudget ((bbox.y1 - bbox.y0) - 2 * (cfg.textPadding : ℚ)) ≤
        pyInt (FH - 2 * (cfg.textPadding : ℚ)) := by
      rw [hb1eq]
      exact pyInt_mono (by linarith)
    have hB2ge1 : 1 ≤ pyInt (FH - 2 * (cfg.textPadding : ℚ)) :=
      le_trans hbh hB12
    have hB2pos : 0 < pyInt (FH - 2 * (cfg.textPadding : ℚ)) :=
      lt_of_lt_of_le one_pos hB2ge1
    -- component equations
    have hN1 : (adjustNeeded cfg true w baseLineH colW fontSize
        WrapDir.vertical text bbox).1 =
        pyInt (((vFinSegs (vWrapRun (baseLineH + cfg.vCharSp)
            (wrapBudget ((bbox.y1 - bbox.y0) - 2 * (cfg.textPadding : ℚ)))
            text)).length : ℚ) * colWidthMetric colW fontSize fontSize +
          (if ((vFinSegs (vWrapRun (baseLineH + cfg.vCharSp)
              (wrapBudget ((bbox.y1 - bbox.y0) - 2 * (cfg.textPadding : ℚ)))
              text)).length : ℤ) > 1 then
            (((vFinSegs (vWrapRun (baseLineH + cfg.vCharSp)
              (wrapBudget ((bbox.y1 - bbox.y0) - 2 * (cfg.textPadding : ℚ)))
              text)).length : ℚ) - 1) * (cfg.vColSp : ℚ)
           else 0)) := by
      show (wrapTextPil true w baseLineH colW fontSize text
        (wrapBudget ((bbox.y1 - bbox.y0) - 2 * (cfg.textPadding : ℚ)))
        WrapDir.vertical cfg.vCharSp cfg.vColSp).totalPrimary = _
      rw [wrap_v_main w baseLineH colW fontSize text _ cfg.vCharSp cfg.vColSp
        ht hB1pos]
    have hT1 : (adjustNeeded cfg true w baseLineH colW fontSize
        WrapDir.vertical text bbox).2 =
        vFinMaxh (vWrapRun (baseLineH + cfg.vCharSp)
          (wrapBudget ((bbox.y1 - bbox.y0) - 2 * (cfg.textPadding : ℚ)))
          text) := by
      show (wrapTextPil true w baseLineH colW fontSize text
        (wrapBudget ((bbox.y1 - bbox.y0) - 2 * (cfg.textPadding : ℚ)))
        WrapDir.vertical cfg.vCharSp cfg.vColSp).maxAchieved = _
      rw [wrap_v_main w baseLineH colW fontSize text _ cfg.vCharSp cfg.vColSp
        ht hB1pos]
    have hN2 : (adjustNeeded cfg true w baseLineH colW fontSize
        WrapDir.vertical text (expandedBox bbox FW FH)).1 =
        pyInt (((vFinSegs (vWrapRun (baseLineH + cfg.vCharSp)
            (pyInt (FH - 2 * (cfg.textPadding : ℚ))) text)).length : ℚ) *
            colWidthMetric colW fontSize fontSize +
          (if ((vFinSegs (vWrapRun (baseLineH + cfg.vCharSp)
              (pyInt (FH - 2 * (cfg.textPadding : ℚ))) text)).length : ℤ) > 1 then
            (((vFinSegs (vWrapRun (baseLineH + cfg.vCharSp)
              (pyInt (FH - 2 * (cfg.textPadding : ℚ))) text)).length : ℚ) - 1) *
              (cfg.vColSp : ℚ)
           else 0)) := by
      show (wrapTextPil true w baseLineH colW fontSize text
        (wrapBudget (((expandedBox bbox FW FH).y1 -
          (expandedBox bbox FW FH).y0) - 2 * (cfg.textPadding : ℚ)))
        WrapDir.vertical cfg.vCharSp cfg.vColSp).totalPrimary = _
      rw [hb2eq, wrap_v_main w baseLineH colW fontSize text _ cfg.vCharSp
        cfg.vColSp ht hB2pos]
    have hT2 : (adjustNeeded cfg true w baseLineH colW fontSize
        WrapDir.vertical text (expandedBox bbox FW FH)).2 =
        vFinMaxh (vWrapRun (baseLineH + cfg.vCharSp)
          (pyInt (FH - 2 * (cfg.textPadding : ℚ))) text) := by
      show (wrapTextPil true w baseLineH colW fontSize text
        (wrapBudget (((expandedBox bbox FW FH).y1 -
          (expandedBox bbox FW FH).y0) - 2 * (cfg.textPadding : ℚ)))
        WrapDir.vertical cfg.vCharSp cfg.vColSp).maxAchieved = _
      rw [hb2eq, wrap_v_main w baseLineH colW fontSize text _ cfg.vCharSp
        cfg.vColSp ht hB2pos]
    -- the second call keeps the expanded box
    unfold adjustBbox
    rw [expandedBox_dx, expandedBox_dy]
    rw [if_neg hen, if_neg hok]
    rw [if_neg (show ¬ (FW ≤ 0 ∨ FH ≤ 0) by
      push_neg
      exact ⟨hFWpos, hFHpos⟩)]
    rw [if_neg (show ¬ (FW - 2 * (cfg.textPadding : ℚ) ≤ 0 ∨
        FH - 2 * (cfg.textPadding : ℚ) ≤ 0) by
      push_neg
      exact ⟨hFWp, hFHp⟩)]
    by_cases h5 : (adjustNeeded cfg true w baseLineH colW fontSize
        WrapDir.vertical text (expandedBox bbox FW FH)).1 ≤ 0 ∧
        (adjustNeeded cfg true w baseLineH colW fontSize
        WrapDir.vertical text (expandedBox bbox FW FH)).2 ≤ 0 ∧ text ≠ []
    · rw [if_pos h5]
    rw [if_neg h5]
    rw [if_neg (show ¬ ((((adjustNeeded cfg true w baseLineH colW fontSize
        WrapDir.vertical text (expandedBox bbox FW FH)).1 +
          2 * cfg.textPadding : ℤ) : ℚ) > FW ∨
        (((adjustNeeded cfg true w baseLineH colW fontSize
        WrapDir.vertical text (expandedBox bbox FW FH)).2 +
          2 * cfg.textPadding : ℤ) : ℚ) > FH) by
      push_neg
      constructor
      · rw [hN2]
        have hcnt := vWrap_count_mono hvc hB12 text
        have h4 := vPrimary_mono (colWidthMetric_nonneg hcw hfs hfs)
          (by exact_mod_cast hvs : (0 : ℚ) ≤ (cfg.vColSp : ℚ)) hcnt
        have h5' : pyInt (((vFinSegs (vWrapRun (baseLineH + cfg.vCharSp)
              (pyInt (FH - 2 * (cfg.textPadding : ℚ))) text)).length : ℚ) *
              colWidthMetric colW fontSize fontSize +
            (if ((vFinSegs (vWrapRun (baseLineH + cfg.vCharSp)
                (pyInt (FH - 2 * (cfg.textPadding : ℚ))) text)).length : ℤ) > 1 then
              (((vFinSegs (vWrapRun (baseLineH + cfg.vCharSp)
                (pyInt (FH - 2 * (cfg.textPadding : ℚ))) text)).length : ℚ) - 1) *
                (cfg.vColSp : ℚ)
             else 0)) + 2 * cfg.textPadding ≤
            (adjustNeeded cfg true w baseLineH colW fontSize
              WrapDir.vertical text bbox).1 + 2 * cfg.textPadding := by
          rw [hN1]
          linarith
        calc ((pyInt (((vFinSegs (vWrapRun (baseLineH + cfg.vCharSp)
              (pyInt (FH - 2 * (cfg.textPadding : ℚ))) text)).length : ℚ) *
              colWidthMetric colW fontSize fontSize +
            (if ((vFinSegs (vWrapRun (baseLineH + cfg.vCharSp)
                (pyInt (FH - 2 * (cfg.textPadding : ℚ))) text)).length : ℤ) > 1 then
              (((vFinSegs (vWrapRun (baseLineH + cfg.vCharSp)
                (pyInt (FH - 2 * (cfg.textPadding : ℚ))) text)).length : ℚ) - 1) *
                (cfg.vColSp : ℚ)
             else 0)) + 2 * cfg.textPadding : ℤ) : ℚ) ≤
            (((adjustNeeded cfg true w baseLineH colW fontSize
              WrapDir.vertical text bbox).1 + 2 * cfg.textPadding : ℤ) : ℚ) := by
              exact_mod_cast h5'
          _ ≤ FW := hreqW
      · rw [hT2]
        have hmax := vWrap_maxA_le hvc hB12 hcnl hcnlne
        rw [← hT1] at hmax
        rcases le_max_iff.mp hmax with hca | hcb
        · have h1 : ((pyInt (FH - 2 * (cfg.textPadding : ℚ)) : ℤ) : ℚ) ≤
              FH - 2 * (cfg.textPadding : ℚ) := pyInt_le_self (le_of_lt hFHp)
          have h2 : ((vFinMaxh (vWrapRun (baseLineH + cfg.vCharSp)
              (pyInt (FH - 2 * (cfg.textPadding : ℚ))) text) : ℤ) : ℚ) ≤
              ((pyInt (FH - 2 * (cfg.textPadding : ℚ)) : ℤ) : ℚ) := by
            exact_mod_cast hca
          push_cast at h2 h1 ⊢
          linarith
        · have h3 : vFinMaxh (vWrapRun (baseLineH + cfg.vCharSp)
              (pyInt (FH - 2 * (cfg.textPadding : ℚ))) text) +
              2 * cfg.textPadding ≤
              (adjustNeeded cfg true w baseLineH colW fontSize
                WrapDir.vertical text bbox).2 + 2 * cfg.textPadding := by
            omega
          calc ((vFinMaxh (vWrapRun (baseLineH + cfg.vCharSp)
                (pyInt (FH - 2 * (cfg.textPadding : ℚ))) text) +
                2 * cfg.textPadding : ℤ) : ℚ) ≤
              (((adjustNeeded cfg true w baseLineH colW fontSize
                WrapDir.vertical text bbox).2 + 2 * cfg.textPadding : ℤ) : ℚ) := by
                exact_mod_cast h3
            _ ≤ FH := hreqH)]
/-- C3 witness: a two-character line in a roomy box, per-character width 12,
line height 20 and padding 2 — the idempotence theorem applies and a second
adjustment pass leaves the box unchanged. -/
theorem autofit_idempotent_on_real_path_witness :
    adjustBbox ⟨true, 2, 0, 0, 0, 0⟩ true (fun l => (l.length : ℚ) * 12) 20 10 16
        WrapDir.horizontal ['h','i']
        (adjustBbox ⟨true, 2, 0, 0, 0, 0⟩ true (fun l => (l.length : ℚ) * 12) 20 10
          16 WrapDir.horizontal ['h','i'] ⟨0, 0, 100, 40⟩) =
      adjustBbox ⟨true, 2, 0, 0, 0, 0⟩ true (fun l => (l.length : ℚ) * 12) 20 10 16
        WrapDir.horizontal ['h','i'] ⟨0, 0, 100, 40⟩ :=
  autofit_idempotent_on_real_path ⟨true, 2, 0, 0, 0, 0⟩
    (fun l => (l.length : ℚ) * 12) 20 10 16 WrapDir.horizontal ['h','i']
    ⟨0, 0, 100, 40⟩
    (by
      intro a b
      push_cast [List.length_append]
      ring)
    (by
      intro c
      norm_num)
    (by decide) (by decide) (by decide) (by decide) (by norm_num) (by decide)
    (by decide) (by decide)
